import Mathlib

/-!
Formal model (shallow embedding) of the URP reference implementation:
the wire-level segment codec with CRC-16, the 16-bit sequence arithmetic,
the packet-loss-and-corruption (PLC) shim, the sender ACK-handling path
and the receiver reorder buffer.

Conventions of the embedding:
* Python ints are `Int` (sequence arithmetic, sequence numbers stored in
  state), byte values are `Nat` below 256, byte strings are `List Nat`.
* Python functions that can raise (struct errors, asserts, `panic`) are
  embedded as `Option`-returning functions; `none` is the raising branch.
* Random draws (Bernoulli flips, random byte/bit choice) are passed in as
  explicit arguments, so every model function is deterministic.
-/

namespace URP

/-- Modulus of the sequence number space (`SEQ_NUM_SPACE = 1 << 16`). -/
def SEQ_NUM_SPACE : Int := 65536

/-- Modulo add in sequence number space (`wrap_add`). -/
def wrap_add (s n : Int) : Int := (s + n) % SEQ_NUM_SPACE

/-- Modulo subtract in sequence number space (`wrap_sub`). -/
def wrap_sub (s n : Int) : Int := (s - n + SEQ_NUM_SPACE) % SEQ_NUM_SPACE

/-- Final three-way comparison at the end of `wrap_cmp` (the code after
the wraparound adjustment). -/
def wrap_cmp_core (s n : Int) : Int :=
  if s < n then -1 else if s = n then 0 else 1

/-- Modulo comparison in sequence number space (`wrap_cmp`).  The source
tests `abs(s - n) > SEQ_NUM_SPACE/2` (the float `32768.0`, exact on these
integers) and shifts the smaller operand up by the modulus. -/
def wrap_cmp (s n : Int) : Int :=
  if (s - n).natAbs > 32768 then
    if s < n then wrap_cmp_core (s + SEQ_NUM_SPACE) n
    else wrap_cmp_core s (n + SEQ_NUM_SPACE)
  else wrap_cmp_core s n

/-- CRC polynomial (default argument `0x16F63` of `CRC16.__init__`). -/
def polynom : Nat := 0x16F63

/-!
The polynomial-division loop of `CRC16._get_remainder` operates on the
byte array `mdata = data + pack('>H', initial_remainder)`.  Reading that
array as one big-endian natural number `M`, the loop scans for the
highest set bit among the `len(data)` leading bytes — i.e. the highest
set bit of `M` as long as `M ≥ 2^16` — and XORs into the three bytes
below it the 17-bit polynomial aligned so that its top bit cancels that
leading bit, which is exactly `M ^^^ (polynom <<< (M.log2 - 16))`
(the packed `polynom << (32-17) >> bitshift` window never truncates,
since `bitshift < 8` keeps all 17 bits inside the 24-bit window).  The
loop ends when the leading `len(data)` bytes are all zero, i.e. when
`M < 2^16`, and returns the final two bytes, i.e. `M` itself.
-/

/-- One step and the driving loop of the polynomial division of
`CRC16._get_remainder`, on the big-endian value of the byte array. -/
def crcDivide (M : Nat) : Nat :=
  if h : M < 2 ^ 16 then M
  else crcDivide (M ^^^ (polynom <<< (M.log2 - 16)))
termination_by M
decreasing_by
  -- the XOR cancels the leading bit of `M`, so the value strictly drops
  have hM : 2 ^ 16 ≤ M := Nat.le_of_not_lt h
  have hM0 : M ≠ 0 := by positivity
  have hk16 : 16 ≤ M.log2 := (Nat.le_log2 hM0).mpr hM
  have hlow : 2 ^ M.log2 ≤ M := Nat.log2_self_le hM0
  have hhigh : M < 2 ^ (M.log2 + 1) := Nat.lt_log2_self
  have hQ : polynom <<< (M.log2 - 16) = polynom * 2 ^ (M.log2 - 16) :=
    Nat.shiftLeft_eq _ _
  have hPlo : (2 : Nat) ^ 16 ≤ polynom := by norm_num [polynom]
  have hPhi : polynom < 2 ^ 17 := by norm_num [polynom]
  have hQlo : 2 ^ M.log2 ≤ polynom <<< (M.log2 - 16) := by
    rw [hQ]
    calc 2 ^ M.log2 = 2 ^ 16 * 2 ^ (M.log2 - 16) := by
          rw [← pow_add]; congr 1; omega
      _ ≤ polynom * 2 ^ (M.log2 - 16) :=
          Nat.mul_le_mul_right _ hPlo
  have hQhi : polynom <<< (M.log2 - 16) < 2 ^ (M.log2 + 1) := by
    rw [hQ]
    calc polynom * 2 ^ (M.log2 - 16) < 2 ^ 17 * 2 ^ (M.log2 - 16) := by
          apply Nat.mul_lt_mul_of_lt_of_le hPhi le_rfl
          exact Nat.pos_pow_of_pos _ (by norm_num)
      _ = 2 ^ (17 + (M.log2 - 16)) := by rw [pow_add]
      _ ≤ 2 ^ (M.log2 + 1) := Nat.pow_le_pow_right (by norm_num) (by omega)
  have hxor : M ^^^ polynom <<< (M.log2 - 16) < 2 ^ M.log2 := by
    apply Nat.lt_pow_two_of_testBit
    intro i hi
    by_cases hEq : i = M.log2
    · -- bit `log2 M` is set on both sides, so it cancels
      rw [hEq]
      have e2 : (1 + 1) * 2 ^ M.log2 = 2 ^ (M.log2 + 1) := by ring
      have h1 : M.testBit M.log2 = true := by
        rw [Nat.testBit_to_div_mod,
            Nat.div_eq_of_lt_le (by rw [one_mul]; exact hlow)
              (by rw [e2]; exact hhigh)]
        rfl
      have h2 : (polynom <<< (M.log2 - 16)).testBit M.log2 = true := by
        rw [Nat.testBit_to_div_mod,
            Nat.div_eq_of_lt_le (by rw [one_mul]; exact hQlo)
              (by rw [e2]; exact hQhi)]
        rfl
      rw [Nat.testBit_xor, h1, h2]
      rfl
    · have hgt : M.log2 < i := by omega
      have hpow : 2 ^ (M.log2 + 1) ≤ 2 ^ i :=
        Nat.pow_le_pow_right (by norm_num) (by omega)
      have h1 : M.testBit i = false :=
        Nat.testBit_lt_two_pow (lt_of_lt_of_le hhigh hpow)
      have h2 : (polynom <<< (M.log2 - 16)).testBit i = false :=
        Nat.testBit_lt_two_pow (lt_of_lt_of_le hQhi hpow)
      simp [Nat.testBit_xor, h1, h2]
  exact lt_of_lt_of_le hxor hlow

/-- Value of a byte string read big-endian, used to state the
correspondence between `bytearray` contents and `crcDivide`. -/
def bytesToNat : List Nat → Nat
  | [] => 0
  | b :: rest => b * 2 ^ (8 * rest.length) + bytesToNat rest

/-- Multiples of the polynomial `p` in the carry-less (GF(2)) sense: the
closure of `0` under XOR with left shifts of `p`.  Statement-side notion
for reasoning about the polynomial division. -/
inductive IsClMultiple (p : Nat) : Nat → Prop where
  | zero : IsClMultiple p 0
  | step (k m : Nat) : IsClMultiple p m → IsClMultiple p (m ^^^ (p <<< k))

namespace CRC16

/-- Model of `CRC16._get_remainder`: appends the 16-bit initial remainder
to the data (numerically `bytesToNat data * 2^16 + init`) and runs the
polynomial division loop.  Raises (returns `none`) on empty data. -/
def get_remainder (data : List Nat) (init : Nat) : Option Nat :=
  if data = [] then none
  else some (crcDivide (bytesToNat data * 2 ^ 16 + init))

/-- Model of `CRC16.encode`. -/
def encode (data : List Nat) : Option Nat :=
  get_remainder data 0

/-- Model of `CRC16.verify`. -/
def verify (data : List Nat) (checksum : Nat) : Option Bool :=
  (get_remainder data checksum).map (fun r => r == 0)

end CRC16

/-- Abstraction of a segment (`common.Segment`).  `seq_num` is stored as
an `Int` like every Python integer field; `data` is the payload byte
string.  Fields are plain (the `None`-until-filled states of the Python
constructor are not representable; every segment the model handles is a
fully constructed one, and `is_complete` keeps the range checks). -/
structure Segment where
  seq_num : Int
  ack : Nat
  syn : Nat
  fin : Nat
  data : List Nat
deriving Repr, DecidableEq

namespace Segment

/-- Model of `Segment.type`. -/
def type (s : Segment) : String :=
  if s.syn ≠ 0 then "SYN"
  else if s.ack ≠ 0 then "ACK"
  else if s.fin ≠ 0 then "FIN"
  else "DATA"

/-- Model of `Segment.end_seq_num`: exclusive range end in sequence
number space. -/
def end_seq_num (s : Segment) : Int :=
  wrap_add s.seq_num s.data.length

/-- Model of `Segment._is_complete` (the `!= None` clauses hold by
construction here; the value checks are kept verbatim). -/
def is_complete (s : Segment) : Bool :=
  (s.ack == 0 || s.ack == 1) && (s.syn == 0 || s.syn == 1)
    && (s.fin == 0 || s.fin == 1) && (s.ack + s.syn + s.fin ≤ 1)
    && (0 ≤ s.seq_num && s.seq_num < 65536)

/-- Model of `Segment._pack_no_checksum`: `struct.pack('!HxBH', seq_num,
flags, 0) + data` — two big-endian seq bytes, a zero pad byte, the flag
byte `(ack<<2)|(syn<<1)|fin`, two zero checksum bytes, then the payload.
`struct.pack` requires `0 ≤ seq_num < 2^16` (guaranteed by
`_check_complete` on the only call path); `toNat` realizes the uint16
view. -/
def pack_no_checksum (s : Segment) : List Nat :=
  [s.seq_num.toNat / 256, s.seq_num.toNat % 256, 0,
   (s.ack <<< 2) ||| (s.syn <<< 1) ||| s.fin, 0, 0] ++ s.data

/-- Model of `Segment._splice_checksum` (the two checksum bytes replace
bytes 4..5). -/
def splice_checksum (buffer : List Nat) (checksum : List Nat) : List Nat :=
  buffer.take 4 ++ checksum ++ buffer.drop 6

/-- Model of `Segment.encode`: raises (`none`) on an incomplete segment,
otherwise packs with a zeroed checksum field, computes the CRC over the
packed bytes and splices it in as two big-endian bytes. -/
def encode (s : Segment) : Option (List Nat) :=
  if s.is_complete then
    let packed := pack_no_checksum s
    (CRC16.encode packed).map
      (fun checksum => splice_checksum packed [checksum / 256, checksum % 256])
  else none

/-- Model of `Segment.decode`: `none` models the `InvalidSegmentError`
for buffers shorter than 6 bytes; otherwise the result is the pair of
the decoded segment (`none` inside on header corruption) and the
checksum-validity boolean.  The spliced buffer passed to the CRC has
length ≥ 6, so `CRC16.verify` never hits its empty-data error; `getD
false` discharges that impossible branch. -/
def decode (buffer : List Nat) : Option (Option Segment × Bool) :=
  match buffer with
  | b0 :: b1 :: b2 :: b3 :: b4 :: b5 :: rest =>
    let data := rest
    let seq_num := b0 * 256 + b1
    let pad := b2
    let flags := b3
    let checksum := b4 * 256 + b5
    let checksum_valid :=
      (CRC16.verify (splice_checksum (b0 :: b1 :: b2 :: b3 :: b4 :: b5 :: rest)
        [0, 0]) checksum).getD false
    if flags &&& 0xf8 ≠ 0 ∨ pad ≠ 0 then some (none, false)
    else
      let ack := (flags >>> 2) &&& 1
      let syn := (flags >>> 1) &&& 1
      let fin := flags &&& 1
      if ack + syn + fin > 1 then some (none, false)
      else some (some ⟨seq_num, ack, syn, fin, data⟩, checksum_valid)
  | _ => none

end Segment

/-- Flip of a single bit of a byte string: bit `j` (value weight `2^j`,
`j < 8`) of the byte at index `i`.  This is the statement-side notion of
"`b'` obtained from `b` by flipping exactly one bit". -/
def flipBit (b : List Nat) (i j : Nat) : List Nat :=
  b.set i ((b.getD i 0) ^^^ (1 <<< j))

/-- Header size used by the PLC corruption routine: the default value
`header_sz = 4` of `PLCModule.__init__`, which both entry programs leave
at its default. -/
def PLC_HEADER_SZ : Nat := 4

namespace PLCModule

/-- Model of `PLCModule._corrupt` for a chosen byte offset and bit draw:
the source draws `corruption_idx ∈ [HEADER_SZ, len(data))` and
`corruption_bit ∈ [0, 8)` and XORs bit `7 - corruption_bit` of the byte
at `corruption_idx`. -/
def corrupt (data : List Nat) (corruption_idx corruption_bit : Nat) : List Nat :=
  data.set corruption_idx
    ((data.getD corruption_idx 0) ^^^ (1 <<< (7 - corruption_bit)))

/-- PLC statistics (`PLCModule.Stats`). -/
structure Stats where
  fwd_drp : Nat
  fwd_cor : Nat
  rev_drp : Nat
  rev_cor : Nat
deriving Repr, DecidableEq

/-- Model of `PLCModule.send`.  The two Bernoulli outcomes are passed in
(`drop` for the forward-loss flip, `cor` for the forward-corruption
flip), together with the corruption draws.  Returns the updated stats
and the list of datagrams written to the socket; `none` models an
exception from `Segment.encode`. -/
def send (stats : Stats) (seg : Segment) (drop cor : Bool)
    (corruption_idx corruption_bit : Nat) :
    Option (Stats × List (List Nat)) :=
  if drop then
    some ({ stats with fwd_drp := stats.fwd_drp + 1 }, [])
  else
    (Segment.encode seg).map (fun data =>
      if cor then
        ({ stats with fwd_cor := stats.fwd_cor + 1 },
          [corrupt data corruption_idx corruption_bit])
      else (stats, [data]))

end PLCModule

namespace Sender

/-- Sender statistics (`Sender.Stats`). -/
structure Stats where
  original_bytes_sent : Nat
  total_bytes_sent : Nat
  original_segs_sent : Nat
  total_segs_sent : Nat
  timeouts : Nat
  fast_retransmissions : Nat
  dup_acks : Nat
  cor_acks : Nat
deriving Repr, DecidableEq

/-- Sender state control block (`Sender.StateControlBlock`). -/
structure StateControlBlock where
  snd_base : Int
  next_seqnum : Int
  dup_acks : Nat
  unacked_queue : List Segment
  state : String
deriving Repr, DecidableEq

/-- Sender state touched by the ACK-handling path: the control block,
the statistics, and whether the retransmission timer is armed
(`rttimer != None` and not cancelled; `_set_rttimer` arms it,
`_stop_rttimer` cancels it). -/
structure M where
  scb : StateControlBlock
  stats : Stats
  rttimer : Bool
deriving Repr, DecidableEq

/-- Model of `Sender.send` restricted to its effect on the sender state:
it bumps `total_segs_sent`/`total_bytes_sent` and hands the segment to
the PLC shim (the shim's own randomness is modelled separately by
`PLCModule.send`). -/
def send_stats (st : M) (segment : Segment) : M :=
  { st with stats :=
      { st.stats with
        total_segs_sent := st.stats.total_segs_sent + 1
        total_bytes_sent := st.stats.total_bytes_sent + segment.data.length } }

/-- Model of `Sender.send` composed with the PLC shim, for the
statistics claims: the sender counters are bumped unconditionally,
then `PLCModule.send` decides what reaches the socket. -/
def send (stats : Stats) (plc_stats : PLCModule.Stats) (segment : Segment)
    (drop cor : Bool) (corruption_idx corruption_bit : Nat) :
    Option (Stats × PLCModule.Stats × List (List Nat)) :=
  let stats' := { stats with
    total_segs_sent := stats.total_segs_sent + 1
    total_bytes_sent := stats.total_bytes_sent + segment.data.length }
  (PLCModule.send plc_stats segment drop cor corruption_idx corruption_bit).map
    (fun r => (stats', r.1, r.2))

/-- Model of `Sender._set_rttimer` (cancel any previous timer, arm a new
one). -/
def set_rttimer (st : M) : M := { st with rttimer := true }

/-- Model of `Sender._stop_rttimer`. -/
def stop_rttimer (st : M) : M := { st with rttimer := false }

/-- Model of `Sender.retransmit`: re-arm the timer, reset the duplicate
ACK counter, and resend the head of the unacked queue if there is one.
Also returns the list of segments handed to `Sender.send` and whether a
retransmission happened. -/
def retransmit (st : M) : M × List Segment × Bool :=
  let st := set_rttimer st
  let st := { st with scb := { st.scb with dup_acks := 0 } }
  match st.scb.unacked_queue with
  | [] => (st, [], false)
  | seg :: _ => (send_stats st seg, [seg], true)

/-- Model of `Sender.triple_dup_ack`. -/
def triple_dup_ack (st : M) : M × List Segment :=
  let r := retransmit st
  if r.2.2 then
    ({ r.1 with stats :=
        { r.1.stats with
          fast_retransmissions := r.1.stats.fast_retransmissions + 1 } },
      r.2.1)
  else (r.1, r.2.1)

/-- Pop condition of the cumulative-ACK loop in `handle_ack`: the
segment ends at or before the acknowledged number. -/
def acked_pred (ack_seq_num : Int) (seg : Segment) : Bool :=
  wrap_cmp seg.end_seq_num ack_seq_num ≤ 0

/-- Model of `Sender.handle_ack`.  `none` models a failing `assert`.
The returned list collects the segments handed to `Sender.send` while
handling this ACK (fast-retransmit resends). -/
def handle_ack (st : M) (ack_seq_num : Int) : Option (M × List Segment) :=
  if wrap_cmp ack_seq_num st.scb.snd_base = -1 then
    -- ack below window base: warn and ignore
    some (st, [])
  else if wrap_cmp ack_seq_num st.scb.next_seqnum = 1 then
    -- ack above anything sent: warn and ignore
    some (st, [])
  else if ack_seq_num = st.scb.snd_base then
    -- duplicate ack
    let st := { st with
      stats := { st.stats with dup_acks := st.stats.dup_acks + 1 }
      scb := { st.scb with dup_acks := st.scb.dup_acks + 1 } }
    if st.scb.dup_acks = 3 then some (triple_dup_ack st)
    else some (st, [])
  else if ¬ (wrap_cmp st.scb.snd_base ack_seq_num = -1
      ∧ wrap_cmp ack_seq_num st.scb.next_seqnum ≤ 0) then
    -- assert: snd_base < ack_seq_num ≤ next_seqnum
    none
  else
    -- cumulative ack: pop whole segments that end at or before the ack
    let q := st.scb.unacked_queue.dropWhile (acked_pred ack_seq_num)
    let st := { st with scb := { st.scb with
      unacked_queue := q, snd_base := ack_seq_num, dup_acks := 0 } }
    if st.scb.snd_base = st.scb.next_seqnum then
      match q with
      | _ :: _ => none  -- assert: queue must be empty
      | [] =>
        let st := stop_rttimer st
        if st.scb.state = "closing" then
          some ({ st with scb := { st.scb with state := "fin_wait" } }, [])
        else some (st, [])
    else
      match q with
      | [] => none  -- assert: queue must be nonempty
      | seg :: tail =>
        let trim_len := wrap_sub ack_seq_num seg.seq_num
        let seg' := if trim_len ≠ 0 then
            Segment.mk ack_seq_num seg.ack seg.syn seg.fin
              (seg.data.drop trim_len.toNat)
          else seg
        some (set_rttimer { st with scb := { st.scb with
          unacked_queue := seg' :: tail } }, [])

end Sender

namespace Receiver

/-- Receiver statistics (`Receiver.Stats`); `last_ack_num` models
`_last_ack_num`, which starts as `None`. -/
structure Stats where
  original_bytes : Nat
  tot_bytes : Nat
  original_segs : Nat
  tot_segs : Nat
  cor_segs : Nat
  dup_segs : Nat
  tot_acks : Nat
  dup_acks : Nat
  last_ack_num : Option Int
deriving Repr, DecidableEq

/-- Receiver state control block (`Receiver.StateControlBlock`). -/
structure StateControlBlock where
  rcv_base : Int
  buffer : List Segment
  state : String
deriving Repr, DecidableEq

/-- Model of `Receiver.send` restricted to its effect on the statistics
(the socket write and log line are outside the model).  Note the Python
truthiness test `if self.stats._last_ack_num and ...`: a stored previous
ACK number of `0` is falsy, exactly like `None`. -/
def send (stats : Stats) (segment : Segment) : Stats :=
  let is_dup := match stats.last_ack_num with
    | none => false
    | some v => if v = 0 then false else v == segment.seq_num
  { stats with
    tot_acks := stats.tot_acks + 1
    dup_acks := stats.dup_acks + (if is_dup then 1 else 0)
    last_ack_num := some segment.seq_num }

/-- Model of the in-order delivery loop of `process_data_segment`: pop
from the front of the buffer while the front segment starts at
`rcv_base`, advancing `rcv_base` past each popped segment.  Returns the
new `rcv_base`, the remaining buffer, and the delivered segments. -/
def pop_in_order (rcv_base : Int) : List Segment → Int × List Segment × List Segment
  | [] => (rcv_base, [], [])
  | s :: rest =>
    if s.seq_num = rcv_base then
      let r := pop_in_order s.end_seq_num rest
      (r.1, r.2.1, s :: r.2.2)
    else (rcv_base, s :: rest, [])

/-- Model of the out-of-order insertion loop of `process_data_segment`:
walk the buffer; on a segment with the same start, panic (`none`) unless
it has the same end (then drop as duplicate); on the first segment with
a strictly greater start, panic if the new segment overlaps into it,
else insert before it; if the walk ends, append.  The boolean reports
whether the segment was inserted (`false` = dropped duplicate). -/
def buffer_insert (segment : Segment) : List Segment → Option (List Segment × Bool)
  | [] => some ([segment], true)
  | b :: rest =>
    if b.seq_num = segment.seq_num then
      if b.end_seq_num ≠ segment.end_seq_num then none
      else some (b :: rest, false)
    else if wrap_cmp b.seq_num segment.seq_num = 1 then
      if wrap_cmp segment.end_seq_num b.seq_num = 1 then none
      else some (segment :: b :: rest, true)
    else
      (buffer_insert segment rest).map (fun r => (b :: r.1, r.2))

/-- Model of `Receiver.process_data_segment`.  `none` models a failing
`assert` or a `panic` call; otherwise returns the new control block, the
new statistics and the list of segments delivered to the byte sink. -/
def process_data_segment (max_win : Nat) (scb : StateControlBlock)
    (stats : Stats) (segment : Segment) :
    Option (StateControlBlock × Stats × List Segment) :=
  if segment.type ≠ "DATA" then none  -- assert
  else if segment.data.length = 0 then
    -- nonsensical packet, dropped
    some (scb, stats, [])
  else if wrap_cmp segment.seq_num scb.rcv_base = -1 then
    -- already received, dropped
    some (scb, { stats with dup_segs := stats.dup_segs + 1 }, [])
  else if wrap_cmp segment.end_seq_num (wrap_add scb.rcv_base max_win) = 1 then
    -- exceeds the receive window, dropped
    some (scb, stats, [])
  else if segment.seq_num = scb.rcv_base then
    -- in-order packet: prepend, then deliver the in-order prefix
    let stats := { stats with
      original_segs := stats.original_segs + 1
      original_bytes := stats.original_bytes + segment.data.length }
    let r := pop_in_order scb.rcv_base (segment :: scb.buffer)
    match r.2.1 with
    | head :: _ =>
      if wrap_cmp r.1 head.seq_num = 1 then none  -- panic: invariant broken
      else some (⟨r.1, r.2.1, scb.state⟩, stats, r.2.2)
    | [] => some (⟨r.1, [], scb.state⟩, stats, r.2.2)
  else
    -- out-of-order packet: insert into the sorted buffer
    (buffer_insert segment scb.buffer).map (fun r =>
      if r.2 then
        (⟨scb.rcv_base, r.1, scb.state⟩,
          { stats with
            original_segs := stats.original_segs + 1
            original_bytes := stats.original_bytes + segment.data.length }, [])
      else
        (⟨scb.rcv_base, r.1, scb.state⟩,
          { stats with dup_segs := stats.dup_segs + 1 }, []))

end Receiver

/-!
Offset view of the sequence number space, used to state window
invariants: positions are measured by `wrap_sub x base`, the modular
distance from a base.  The protocol assumption recorded at `wrap_cmp`
(no logical gap ever exceeds half the space, since windows are far
smaller than `2^15`) makes these offsets meaningful.
-/

/-- Offset of a sequence number from a base, in `[0, 65536)`. -/
def seq_off (base x : Int) : Int := wrap_sub x base

/-- Contiguity invariant of the sender's unacked queue ("invariant 1" of
`Sender.StateControlBlock`): walking the queue from offset `cur` after
`base`, each segment starts exactly at the cursor, has nonzero length,
stays within `hi`, and stores its sequence number in canonical form.
Returns the final cursor (the offset of `next_seqnum`), or `none` if the
queue is not contiguous. -/
def queue_span (base : Int) : Int → List Segment → Option Int
  | cur, [] => some cur
  | cur, s :: rest =>
    if s.seq_num = (base + cur) % 65536 ∧ s.data.length ≠ 0 then
      queue_span base (cur + s.data.length) rest
    else none

/-- Sortedness/window invariant of the receiver's reorder buffer, in
offset view: each buffered segment starts at offset at least `cur` after
`base` (with `cur = 1` this is "strictly after `rcv_base`"), segments
are pairwise non-overlapping and ordered (each next segment starts at or
after the previous end), every segment ends within offset `hi`, has
nonzero length, and stores its sequence number in `[0, 65536)`. -/
def buf_chain (base : Int) : Int → Int → List Segment → Bool
  | _, _, [] => true
  | cur, hi, s :: rest =>
    let o := seq_off base s.seq_num
    (0 ≤ s.seq_num && s.seq_num < 65536) && (cur ≤ o)
      && (s.data.length ≠ 0) && (o + s.data.length ≤ hi)
      && buf_chain base (o + s.data.length) hi rest

/-! ### Sequence arithmetic lemmas -/

theorem wrap_cmp_self (a : Int) : wrap_cmp a a = 0 := by
  unfold wrap_cmp wrap_cmp_core SEQ_NUM_SPACE
  split_ifs <;> (try simp only [false_iff, iff_false, true_iff, iff_true]) <;> omega

theorem wrap_cmp_cases (s n : Int) :
    wrap_cmp s n = -1 ∨ wrap_cmp s n = 0 ∨ wrap_cmp s n = 1 := by
  unfold wrap_cmp wrap_cmp_core SEQ_NUM_SPACE
  split_ifs <;> simp

theorem wrap_cmp_eq_zero_iff (a b : Int) (ha : 0 ≤ a) (ha' : a < 65536)
    (hb : 0 ≤ b) (hb' : b < 65536) : wrap_cmp a b = 0 ↔ a = b := by
  unfold wrap_cmp wrap_cmp_core SEQ_NUM_SPACE
  split_ifs <;> (try simp only [false_iff, iff_false, true_iff, iff_true]) <;> omega

/-- Linearization of `wrap_cmp` on two positions given as offsets `x`
and `y` from a common base: as long as the two offsets are within
`32767` of each other, the modular comparison agrees with the plain
comparison of the offsets. -/
theorem wrap_cmp_mod (b x y : Int) (hx : 0 ≤ x) (hx' : x ≤ 65535)
    (hy : 0 ≤ y) (hy' : y ≤ 65535) (hxy : (x - y).natAbs ≤ 32767) :
    wrap_cmp ((b + x) % 65536) ((b + y) % 65536) =
      if x < y then -1 else if x = y then 0 else 1 := by
  unfold wrap_cmp wrap_cmp_core SEQ_NUM_SPACE
  split_ifs <;> (try simp only [false_iff, iff_false, true_iff, iff_true]) <;> omega

theorem wrap_sub_mod (b x y : Int) :
    wrap_sub ((b + x) % 65536) ((b + y) % 65536) = (x - y) % 65536 := by
  unfold wrap_sub SEQ_NUM_SPACE
  omega

theorem wrap_add_mod (b x n : Int) :
    wrap_add ((b + x) % 65536) n = (b + (x + n)) % 65536 := by
  unfold wrap_add SEQ_NUM_SPACE
  omega

theorem wrap_mod_inj (b x y : Int) (hx : 0 ≤ x) (hx' : x ≤ 65535)
    (hy : 0 ≤ y) (hy' : y ≤ 65535) :
    (b + x) % 65536 = (b + y) % 65536 ↔ x = y := by
  omega

/-- C8.  For all `s, n` in `[0, 2^16)`, `wrap_add (wrap_sub s n) n = s`;
and for all `a, b` in `[0, 2^16)` with `|a - b| ≤ 2^15`, `wrap_cmp a b`
equals the sign of `a - b`. -/
theorem c8_sequence_arithmetic (s n a b : Int)
    (hs : 0 ≤ s ∧ s < 65536) (hn : 0 ≤ n ∧ n < 65536)
    (ha : 0 ≤ a ∧ a < 65536) (hb : 0 ≤ b ∧ b < 65536)
    (hab : (a - b).natAbs ≤ 32768) :
    wrap_add (wrap_sub s n) n = s ∧ wrap_cmp a b = (a - b).sign := by
  constructor
  · unfold wrap_add wrap_sub SEQ_NUM_SPACE
    omega
  · rcases lt_trichotomy a b with h | h | h
    · rw [Int.sign_eq_neg_one_iff_neg.mpr (by omega)]
      unfold wrap_cmp wrap_cmp_core SEQ_NUM_SPACE
      split_ifs <;> omega
    · rw [h, sub_self, Int.sign_zero, wrap_cmp_self]
    · rw [Int.sign_eq_one_iff_pos.mpr (by omega)]
      unfold wrap_cmp wrap_cmp_core SEQ_NUM_SPACE
      split_ifs <;> omega

theorem c8_sequence_arithmetic_witness :
    wrap_add (wrap_sub 3 65535) 65535 = 3 ∧
      wrap_cmp 0 32768 = ((0 : Int) - 32768).sign :=
  c8_sequence_arithmetic 3 65535 0 32768 (by decide) (by decide)
    (by decide) (by decide) (by decide)

/-! ### Receiver ACK statistics (C9) -/

/-- C9.  `Receiver.send` counts a duplicate ACK exactly when a previous
ACK number is stored, it equals the current one, and it is nonzero; a
stored `0` behaves like "no previous ACK" (Python truthiness), so two
consecutive ACKs with `seq_num = 0` are not counted as duplicates. -/
theorem c9_receiver_send_dup_count (stats : Receiver.Stats) (segment : Segment) :
    ((Receiver.send stats segment).dup_acks = stats.dup_acks + 1 ↔
      (stats.last_ack_num = some segment.seq_num ∧ segment.seq_num ≠ 0)) ∧
    ((Receiver.send stats segment).dup_acks = stats.dup_acks ↔
      ¬ (stats.last_ack_num = some segment.seq_num ∧ segment.seq_num ≠ 0)) ∧
    (stats.last_ack_num = some 0 →
      (Receiver.send stats segment).dup_acks = stats.dup_acks) ∧
    (Receiver.send stats segment).last_ack_num = some segment.seq_num ∧
    (Receiver.send stats segment).tot_acks = stats.tot_acks + 1 := by
  rcases hl : stats.last_ack_num with _ | v
  · simp [Receiver.send, hl]
  · by_cases hv : v = 0
    · subst hv
      simp [Receiver.send, hl]
      exact fun h => h.symm
    · by_cases he : v = segment.seq_num
      · subst he
        simp [Receiver.send, hl, hv]
      · simp [Receiver.send, hl, hv, he, Ne.symm he]

theorem c9_receiver_send_dup_count_witness :
    ((Receiver.send ⟨0,0,0,0,0,0,7,2,some 0⟩ ⟨0,1,0,0,[]⟩).dup_acks = 2 + 1 ↔
      ((some 0 : Option Int) = some (0 : Int) ∧ (0 : Int) ≠ 0)) ∧
    ((Receiver.send ⟨0,0,0,0,0,0,7,2,some 0⟩ ⟨0,1,0,0,[]⟩).dup_acks = 2 ↔
      ¬ ((some 0 : Option Int) = some (0 : Int) ∧ (0 : Int) ≠ 0)) ∧
    ((some 0 : Option Int) = some 0 →
      (Receiver.send ⟨0,0,0,0,0,0,7,2,some 0⟩ ⟨0,1,0,0,[]⟩).dup_acks = 2) ∧
    (Receiver.send ⟨0,0,0,0,0,0,7,2,some 0⟩ ⟨0,1,0,0,[]⟩).last_ack_num = some 0 ∧
    (Receiver.send ⟨0,0,0,0,0,0,7,2,some 0⟩ ⟨0,1,0,0,[]⟩).tot_acks = 7 + 1 :=
  c9_receiver_send_dup_count ⟨0,0,0,0,0,0,7,2,some 0⟩ ⟨0,1,0,0,[]⟩

/-! ### Sender send statistics (C10) -/

/-- C10.  `Sender.send` bumps `total_segs_sent` by one and
`total_bytes_sent` by the payload length before the PLC shim runs, so a
segment dropped by the forward-loss flip (which writes nothing to the
socket) is still counted in both totals. -/
theorem c10_send_counts_before_plc (stats : Sender.Stats)
    (plc_stats : PLCModule.Stats) (segment : Segment) (drop cor : Bool)
    (corruption_idx corruption_bit : Nat)
    (res : Sender.Stats × PLCModule.Stats × List (List Nat))
    (h : Sender.send stats plc_stats segment drop cor
      corruption_idx corruption_bit = some res) :
    res.1.total_segs_sent = stats.total_segs_sent + 1 ∧
    res.1.total_bytes_sent = stats.total_bytes_sent + segment.data.length ∧
    (drop = true → res.2.2 = []) := by
  unfold Sender.send PLCModule.send at h
  cases drop
  · simp only [Bool.false_eq_true, if_false] at h
    rcases henc : Segment.encode segment with _ | data
    · rw [henc] at h
      simp at h
    · rw [henc] at h
      cases cor <;> simp_all <;> subst h <;> simp
  · simp only [if_true] at h
    simp at h
    subst h
    simp

theorem c10_send_counts_before_plc_witness :
    (Sender.Stats.mk 0 17 0 3 0 0 0 0).total_segs_sent = 2 + 1 ∧
    (Sender.Stats.mk 0 17 0 3 0 0 0 0).total_bytes_sent =
      12 + (Segment.mk 9 0 0 0 [104, 105, 106, 107, 108]).data.length ∧
    (true = true → ([] : List (List Nat)) = []) :=
  c10_send_counts_before_plc ⟨0,12,0,2,0,0,0,0⟩ ⟨0,0,0,0⟩
    ⟨9,0,0,0,[104,105,106,107,108]⟩ true false 0 0
    (⟨0,17,0,3,0,0,0,0⟩, ⟨1,0,0,0⟩, []) (by decide)

/-! ### PLC corruption region (C5) -/

theorem xor_shift_ne_self (d k : Nat) : d ^^^ (1 <<< k) ≠ d := by
  intro heq
  have h1 : (1 : Nat) <<< k = 0 := by
    calc (1 : Nat) <<< k
        = d ^^^ (d ^^^ (1 <<< k)) := by
          rw [← Nat.xor_assoc, Nat.xor_self, Nat.zero_xor]
      _ = d ^^^ d := by rw [heq]
      _ = 0 := Nat.xor_self d
  have h2 : (0 : Nat) < 1 <<< k := by
    rw [Nat.shiftLeft_eq, one_mul]
    positivity
  omega

theorem getD_set_self (l : List Nat) (i : Nat) (v : Nat) (h : i < l.length) :
    (l.set i v).getD i 0 = v := by
  rw [List.getD_eq_getElem?_getD, List.getElem?_set_self h, Option.getD_some]

/-- C5, counterexample.  The claim that a PLC bit flip always lands at a
byte offset of at least the 6-byte header size — so that no header byte,
in particular not the checksum field at bytes 4..5 — is ever altered, is
false: the shim is constructed with the default `header_sz = 4`, so the
draw `corruption_idx = 4` is allowed and flips a bit inside the checksum
field. -/
theorem c5_counterexample :
    ¬ (∀ (data : List Nat) (corruption_idx corruption_bit : Nat),
        PLC_HEADER_SZ ≤ corruption_idx → corruption_idx < data.length →
        corruption_bit < 8 → ∀ j, j < 6 →
        (PLCModule.corrupt data corruption_idx corruption_bit).getD j 0 =
          data.getD j 0) := by
  intro h
  have := h [0, 0, 0, 0, 0, 0, 0] 4 0 (by decide) (by decide) (by decide) 4
    (by decide)
  revert this
  decide

/-- C5, amended.  Whenever the PLC shim corrupts an encoded segment, the
flipped bit lies at a byte offset in `[4, buffer_len)` — the default
`header_sz` is 4 — so the `seq_num`, padding and flag bytes (offsets
0..3) are never altered, exactly the byte at the drawn offset changes,
and the length is preserved; the checksum field at bytes 4..5 CAN be
altered. -/
theorem c5_corruption_region (data : List Nat) (corruption_idx corruption_bit : Nat)
    (hidx : PLC_HEADER_SZ ≤ corruption_idx) (hlen : corruption_idx < data.length)
    (hbit : corruption_bit < 8) :
    4 ≤ corruption_idx ∧
    (PLCModule.corrupt data corruption_idx corruption_bit).length = data.length ∧
    (∀ j, j ≠ corruption_idx →
      (PLCModule.corrupt data corruption_idx corruption_bit).getD j 0 =
        data.getD j 0) ∧
    (PLCModule.corrupt data corruption_idx corruption_bit).getD corruption_idx 0 ≠
      data.getD corruption_idx 0 := by
  refine ⟨hidx, ?_, ?_, ?_⟩
  · exact List.length_set ..
  · intro j hj
    unfold PLCModule.corrupt
    rw [List.getD_eq_getElem?_getD, List.getElem?_set_ne (Ne.symm hj),
      List.getD_eq_getElem?_getD]
  · unfold PLCModule.corrupt
    rw [getD_set_self data corruption_idx _ hlen]
    exact xor_shift_ne_self _ _

theorem c5_corruption_region_witness :
    4 ≤ 4 ∧
    (PLCModule.corrupt [0, 0, 0, 0, 0, 0, 9] 4 1).length =
      ([0, 0, 0, 0, 0, 0, 9] : List Nat).length ∧
    (∀ j, j ≠ 4 →
      (PLCModule.corrupt [0, 0, 0, 0, 0, 0, 9] 4 1).getD j 0 =
        ([0, 0, 0, 0, 0, 0, 9] : List Nat).getD j 0) ∧
    (PLCModule.corrupt [0, 0, 0, 0, 0, 0, 9] 4 1).getD 4 0 ≠
      ([0, 0, 0, 0, 0, 0, 9] : List Nat).getD 4 0 :=
  c5_corruption_region [0, 0, 0, 0, 0, 0, 9] 4 1 (by decide) (by decide)
    (by decide)

/-! ### Sender ACK handling: stuck `closing` state (C6) and fast
retransmit (C7) -/

theorem triple_dup_ack_nil (st : Sender.M) (hq : st.scb.unacked_queue = []) :
    Sender.triple_dup_ack st =
      ({ st with
         rttimer := true
         scb := { st.scb with dup_acks := 0 } }, []) := by
  simp [Sender.triple_dup_ack, Sender.retransmit, Sender.set_rttimer, hq]

theorem triple_dup_ack_cons (st : Sender.M) (head : Segment)
    (tail : List Segment) (hq : st.scb.unacked_queue = head :: tail) :
    Sender.triple_dup_ack st =
      ({ st with
         rttimer := true
         scb := { st.scb with dup_acks := 0 }
         stats := { st.stats with
           total_segs_sent := st.stats.total_segs_sent + 1
           total_bytes_sent := st.stats.total_bytes_sent + head.data.length
           fast_retransmissions := st.stats.fast_retransmissions + 1 } },
        [head]) := by
  simp [Sender.triple_dup_ack, Sender.retransmit, Sender.set_rttimer,
    Sender.send_stats, hq]

/-- C6 (refuting theorem).  With an exhausted byte source the sender sits
in state `closing` with `snd_base = next_seqnum` and an empty unacked
queue.  From that configuration `handle_ack` can never reach `fin_wait`
for any ACK number, and sends nothing: every ACK either falls in a
warn-and-discard branch or in the duplicate branch (whose retransmission
finds an empty queue).  Since `Sender.run` leaves its loop only when the
state becomes `fin_wait`, and the FIN is sent only after that loop, the
sender never terminates on empty input, contradicting the specified
SYN/FIN-only exchange and final `closed` state. -/
theorem c6_closing_is_stuck (st : Sender.M) (a : Int)
    (hstate : st.scb.state = "closing")
    (hq : st.scb.unacked_queue = [])
    (heq : st.scb.snd_base = st.scb.next_seqnum)
    (hbase : 0 ≤ st.scb.snd_base ∧ st.scb.snd_base < 65536)
    (ha : 0 ≤ a ∧ a < 65536) :
    ∃ st', Sender.handle_ack st a = some (st', []) ∧
      st'.scb.state = "closing" ∧
      st'.scb.snd_base = st.scb.snd_base ∧
      st'.scb.next_seqnum = st.scb.next_seqnum ∧
      st'.scb.unacked_queue = [] := by
  obtain ⟨hb0, hb1⟩ := hbase
  obtain ⟨ha0, ha1⟩ := ha
  unfold Sender.handle_ack
  by_cases h1 : wrap_cmp a st.scb.snd_base = -1
  · rw [if_pos h1]
    exact ⟨st, rfl, hstate, rfl, rfl, hq⟩
  · rw [if_neg h1]
    by_cases h2 : wrap_cmp a st.scb.next_seqnum = 1
    · rw [if_pos h2]
      exact ⟨st, rfl, hstate, rfl, rfl, hq⟩
    · rw [if_neg h2]
      by_cases h3 : a = st.scb.snd_base
      · rw [if_pos h3]
        dsimp only
        by_cases h4 : st.scb.dup_acks + 1 = 3
        · rw [if_pos h4, triple_dup_ack_nil]
          · exact ⟨_, rfl, hstate, rfl, rfl, hq⟩
          · exact hq
        · rw [if_neg h4]
          exact ⟨_, rfl, hstate, rfl, rfl, hq⟩
      · rw [if_neg h3]
        exfalso
        rcases wrap_cmp_cases a st.scb.snd_base with hc | hc | hc
        · exact h1 hc
        · exact h3 ((wrap_cmp_eq_zero_iff a st.scb.snd_base ha0 ha1 hb0 hb1).mp hc)
        · rw [← heq] at h2
          exact h2 hc

theorem c6_closing_is_stuck_witness :
    ∃ st', Sender.handle_ack
        ⟨⟨7, 7, 0, [], "closing"⟩, ⟨0, 0, 0, 0, 0, 0, 0, 0⟩, false⟩ 7 =
        some (st', []) ∧
      st'.scb.state = "closing" ∧
      st'.scb.snd_base =
        (Sender.StateControlBlock.mk 7 7 0 [] "closing").snd_base ∧
      st'.scb.next_seqnum =
        (Sender.StateControlBlock.mk 7 7 0 [] "closing").next_seqnum ∧
      st'.scb.unacked_queue = [] :=
  c6_closing_is_stuck ⟨⟨7, 7, 0, [], "closing"⟩, ⟨0, 0, 0, 0, 0, 0, 0, 0⟩, false⟩
    7 rfl rfl rfl (by decide) (by decide)

/-- C7.  Three consecutive duplicate ACKs equal to `snd_base`, handled
while the unacked queue is nonempty and the duplicate counter starts at
zero, retransmit the head of the queue exactly once — on the third
duplicate, nothing being resent on the first two — re-arm the
retransmission timer, reset `dup_acks` to 0, and count one fast
retransmission. -/
theorem c7_triple_dup_ack_fast_retransmit (st : Sender.M) (head : Segment)
    (tail : List Segment)
    (hdup : st.scb.dup_acks = 0)
    (hq : st.scb.unacked_queue = head :: tail)
    (hcmp : wrap_cmp st.scb.snd_base st.scb.next_seqnum = -1) :
    ∃ st1 st2 st3,
      Sender.handle_ack st st.scb.snd_base = some (st1, []) ∧
      Sender.handle_ack st1 st.scb.snd_base = some (st2, []) ∧
      Sender.handle_ack st2 st.scb.snd_base = some (st3, [head]) ∧
      st1.scb.dup_acks = 1 ∧ st2.scb.dup_acks = 2 ∧ st3.scb.dup_acks = 0 ∧
      st3.rttimer = true ∧
      st3.scb.unacked_queue = st.scb.unacked_queue ∧
      st3.scb.snd_base = st.scb.snd_base ∧
      st3.scb.state = st.scb.state ∧
      st3.stats.fast_retransmissions = st.stats.fast_retransmissions + 1 ∧
      st3.stats.dup_acks = st.stats.dup_acks + 3 := by
  have hg1 : ¬ wrap_cmp st.scb.snd_base st.scb.snd_base = -1 := by
    rw [wrap_cmp_self]
    decide
  have hg2 : ¬ wrap_cmp st.scb.snd_base st.scb.next_seqnum = 1 := by
    rw [hcmp]
    decide
  have e1 : Sender.handle_ack st st.scb.snd_base =
      some ({ st with
        stats := { st.stats with dup_acks := st.stats.dup_acks + 1 }
        scb := { st.scb with dup_acks := st.scb.dup_acks + 1 } }, []) := by
    unfold Sender.handle_ack
    rw [if_neg hg1, if_neg hg2, if_pos rfl]
    dsimp only
    rw [if_neg (by omega)]
  set st1 : Sender.M := { st with
    stats := { st.stats with dup_acks := st.stats.dup_acks + 1 }
    scb := { st.scb with dup_acks := st.scb.dup_acks + 1 } } with hst1
  have e2 : Sender.handle_ack st1 st.scb.snd_base =
      some ({ st1 with
        stats := { st1.stats with dup_acks := st1.stats.dup_acks + 1 }
        scb := { st1.scb with dup_acks := st1.scb.dup_acks + 1 } }, []) := by
    unfold Sender.handle_ack
    rw [if_neg hg1, if_neg hg2, if_pos rfl]
    dsimp only
    rw [if_neg (by simp [hst1]; omega)]
  set st2 : Sender.M := { st1 with
    stats := { st1.stats with dup_acks := st1.stats.dup_acks + 1 }
    scb := { st1.scb with dup_acks := st1.scb.dup_acks + 1 } } with hst2
  have hq2 : st2.scb.unacked_queue = head :: tail := hq
  set st3pre : Sender.M := { st2 with
    stats := { st2.stats with dup_acks := st2.stats.dup_acks + 1 }
    scb := { st2.scb with dup_acks := st2.scb.dup_acks + 1 } } with hst3
  have e3 : Sender.handle_ack st2 st.scb.snd_base =
      some (Sender.triple_dup_ack st3pre) := by
    unfold Sender.handle_ack
    rw [if_neg hg1, if_neg hg2, if_pos rfl]
    dsimp only
    rw [if_pos (by simp [hst2, hst1]; omega)]
  have hq3 : st3pre.scb.unacked_queue = head :: tail := hq
  rw [triple_dup_ack_cons st3pre head tail hq3] at e3
  exact ⟨st1, st2, _, e1, e2, e3, by simp [hst1, hdup], by simp [hst2, hst1, hdup],
    by simp, by simp, by simp [hst2, hst1, hq], by simp [hst2, hst1],
    by simp [hst2, hst1], by simp [hst2, hst1],
    by simp [hst2, hst1]⟩

theorem c7_triple_dup_ack_fast_retransmit_witness :
    ∃ st1 st2 st3,
      Sender.handle_ack
          ⟨⟨10, 13, 0, [⟨10, 0, 0, 0, [65, 66, 67]⟩], "est"⟩,
            ⟨3, 3, 1, 1, 0, 0, 0, 0⟩, true⟩ 10 = some (st1, []) ∧
      Sender.handle_ack st1 10 = some (st2, []) ∧
      Sender.handle_ack st2 10 = some (st3, [⟨10, 0, 0, 0, [65, 66, 67]⟩]) ∧
      st1.scb.dup_acks = 1 ∧ st2.scb.dup_acks = 2 ∧ st3.scb.dup_acks = 0 ∧
      st3.rttimer = true ∧
      st3.scb.unacked_queue =
        (Sender.StateControlBlock.mk 10 13 0 [⟨10, 0, 0, 0, [65, 66, 67]⟩]
          "est").unacked_queue ∧
      st3.scb.snd_base = 10 ∧
      st3.scb.state = "est" ∧
      st3.stats.fast_retransmissions = 0 + 1 ∧
      st3.stats.dup_acks = 0 + 3 :=
  c7_triple_dup_ack_fast_retransmit
    ⟨⟨10, 13, 0, [⟨10, 0, 0, 0, [65, 66, 67]⟩], "est"⟩,
      ⟨3, 3, 1, 1, 0, 0, 0, 0⟩, true⟩ ⟨10, 0, 0, 0, [65, 66, 67]⟩ []
    rfl rfl (by decide)

/-! ### CRC-16 theory: bit-level helpers -/

theorem xor_left_comm (a b c : Nat) : a ^^^ (b ^^^ c) = b ^^^ (a ^^^ c) := by
  rw [← Nat.xor_assoc, Nat.xor_comm a b, Nat.xor_assoc]

theorem testBit_high_of_bounds {x L : Nat} (h1 : 2 ^ L ≤ x)
    (h2 : x < 2 ^ (L + 1)) : x.testBit L = true := by
  have e2 : (1 + 1) * 2 ^ L = 2 ^ (L + 1) := by ring
  rw [Nat.testBit_to_div_mod,
      Nat.div_eq_of_lt_le (by rw [one_mul]; exact h1) (by rw [e2]; exact h2)]
  rfl

theorem log2_eq_of_bounds {x L : Nat} (h1 : 2 ^ L ≤ x)
    (h2 : x < 2 ^ (L + 1)) : x.log2 = L := by
  have h0 : (0 : Nat) < 2 ^ L := Nat.pos_pow_of_pos _ (by norm_num)
  have hx : x ≠ 0 := by omega
  have ha : L ≤ x.log2 := (Nat.le_log2 hx).mpr h1
  have hb : x.log2 < L + 1 := (Nat.log2_lt hx).mpr h2
  omega

theorem xor_lt_of_both_high {x y L : Nat} (hx1 : 2 ^ L ≤ x)
    (hx2 : x < 2 ^ (L + 1)) (hy1 : 2 ^ L ≤ y) (hy2 : y < 2 ^ (L + 1)) :
    x ^^^ y < 2 ^ L := by
  apply Nat.lt_pow_two_of_testBit
  intro i hi
  by_cases hEq : i = L
  · subst hEq
    rw [Nat.testBit_xor, testBit_high_of_bounds hx1 hx2,
        testBit_high_of_bounds hy1 hy2]
    rfl
  · have hpow : 2 ^ (L + 1) ≤ 2 ^ i :=
      Nat.pow_le_pow_right (by norm_num) (by omega)
    rw [Nat.testBit_xor,
        Nat.testBit_lt_two_pow (lt_of_lt_of_le hx2 hpow),
        Nat.testBit_lt_two_pow (lt_of_lt_of_le hy2 hpow)]
    rfl

theorem xor_high_of_one_low {x y L : Nat} (hx : x < 2 ^ L)
    (hy1 : 2 ^ L ≤ y) (hy2 : y < 2 ^ (L + 1)) :
    2 ^ L ≤ x ^^^ y ∧ x ^^^ y < 2 ^ (L + 1) := by
  constructor
  · have hbit : (x ^^^ y).testBit L = true := by
      rw [Nat.testBit_xor, Nat.testBit_lt_two_pow hx,
          testBit_high_of_bounds hy1 hy2]
      rfl
    exact Nat.testBit_implies_ge hbit
  · exact Nat.xor_lt_two_pow (lt_trans hx (by
      exact Nat.pow_lt_pow_right (by norm_num) (by omega))) hy2

theorem xor_shiftLeft (a b n : Nat) :
    (a ^^^ b) <<< n = (a <<< n) ^^^ (b <<< n) := by
  apply Nat.eq_of_testBit_eq
  intro i
  by_cases h : n ≤ i <;>
    simp [Nat.testBit_shiftLeft, Nat.testBit_xor, h]

theorem mul_pow_eq_shiftLeft (a k : Nat) : a * 2 ^ k = a <<< k :=
  (Nat.shiftLeft_eq a k).symm

theorem xor_mul_pow (a b k : Nat) :
    (a ^^^ b) * 2 ^ k = (a * 2 ^ k) ^^^ (b * 2 ^ k) := by
  rw [mul_pow_eq_shiftLeft, mul_pow_eq_shiftLeft, mul_pow_eq_shiftLeft,
      xor_shiftLeft]

theorem mul_pow_add_eq_xor (a c k : Nat) (hc : c < 2 ^ k) :
    a * 2 ^ k + c = (a * 2 ^ k) ^^^ c := by
  have hor : 2 ^ k * a + c = 2 ^ k * a ||| c := Nat.mul_add_lt_is_or hc a
  have hxo : 2 ^ k * a ^^^ c = 2 ^ k * a ||| c := by
    apply Nat.eq_of_testBit_eq
    intro i
    rw [Nat.testBit_xor, Nat.testBit_or]
    by_cases h : i < k
    · have h1 : (2 ^ k * a).testBit i = false := by
        rw [Nat.testBit_mul_pow_two]
        simp [Nat.not_le.mpr h]
      rw [h1]
      cases c.testBit i <;> rfl
    · have h2 : c.testBit i = false :=
        Nat.testBit_lt_two_pow (lt_of_lt_of_le hc
          (Nat.pow_le_pow_right (by norm_num) (by omega)))
      rw [h2]
      cases (2 ^ k * a).testBit i <;> rfl
  rw [mul_comm a (2 ^ k), hor, ← hxo]

/-- Bounds of the polynomial aligned by a left shift. -/
theorem polynom_shift_bounds (k : Nat) :
    2 ^ (k + 16) ≤ polynom <<< k ∧ polynom <<< k < 2 ^ (k + 17) := by
  rw [← mul_pow_eq_shiftLeft]
  have e16 : (2 : Nat) ^ (k + 16) = 2 ^ 16 * 2 ^ k := by
    rw [pow_add, mul_comm]
  have e17 : (2 : Nat) ^ (k + 17) = 2 ^ 17 * 2 ^ k := by
    rw [pow_add, mul_comm]
  constructor
  · rw [e16]
    exact Nat.mul_le_mul_right _ (by norm_num [polynom])
  · rw [e17]
    apply Nat.mul_lt_mul_of_lt_of_le (by norm_num [polynom]) le_rfl
    exact Nat.pos_pow_of_pos _ (by norm_num)

/-! ### CRC-16 theory: the division loop -/

theorem crcDivide_of_lt {M : Nat} (h : M < 2 ^ 16) : crcDivide M = M := by
  unfold crcDivide
  rw [dif_pos h]

theorem crcDivide_of_ge {M : Nat} (h : ¬ M < 2 ^ 16) :
    crcDivide M = crcDivide (M ^^^ (polynom <<< (M.log2 - 16))) := by
  conv_lhs => rw [crcDivide]
  rw [dif_neg h]

theorem crcStep_lt {M : Nat} (h : 2 ^ 16 ≤ M) :
    M ^^^ (polynom <<< (M.log2 - 16)) < M := by
  have hM0 : M ≠ 0 := by positivity
  have hk16 : 16 ≤ M.log2 := (Nat.le_log2 hM0).mpr h
  have hlow : 2 ^ M.log2 ≤ M := Nat.log2_self_le hM0
  have hhigh : M < 2 ^ (M.log2 + 1) := Nat.lt_log2_self
  have hQ := polynom_shift_bounds (M.log2 - 16)
  have e : M.log2 - 16 + 16 = M.log2 := by omega
  have e' : M.log2 - 16 + 17 = M.log2 + 1 := by omega
  rw [e, e'] at hQ
  exact lt_of_lt_of_le
    (xor_lt_of_both_high hlow hhigh hQ.1 hQ.2) hlow

theorem crcDivide_lt (M : Nat) : crcDivide M < 2 ^ 16 := by
  induction M using Nat.strong_induction_on with
  | _ M ih =>
    by_cases h : M < 2 ^ 16
    · rw [crcDivide_of_lt h]
      exact h
    · rw [crcDivide_of_ge h]
      exact ih _ (crcStep_lt (Nat.le_of_not_lt h))

/-- XORing a shifted copy of the polynomial into the dividend does not
change the remainder of the division loop. -/
theorem crcDivide_xor_shift (M k : Nat) :
    crcDivide (M ^^^ polynom <<< k) = crcDivide M := by
  induction M using Nat.strong_induction_on generalizing k with
  | _ M ih =>
    obtain ⟨hQ1, hQ2⟩ := polynom_shift_bounds k
    by_cases hMk : M < 2 ^ (k + 16)
    · -- the first division step cancels the injected shift
      obtain ⟨hx1, hx2⟩ := xor_high_of_one_low hMk hQ1 hQ2
      have h16 : (2 : Nat) ^ 16 ≤ 2 ^ (k + 16) :=
        Nat.pow_le_pow_right (by norm_num) (by omega)
      have hge : ¬ (M ^^^ polynom <<< k) < 2 ^ 16 := by omega
      have hlog : (M ^^^ polynom <<< k).log2 = k + 16 :=
        log2_eq_of_bounds hx1 hx2
      rw [crcDivide_of_ge hge, hlog]
      have e : k + 16 - 16 = k := by omega
      rw [e, Nat.xor_assoc, Nat.xor_self, Nat.xor_zero]
    · have h16 : (2 : Nat) ^ 16 ≤ 2 ^ (k + 16) :=
        Nat.pow_le_pow_right (by norm_num) (by omega)
      have hMge : 2 ^ 16 ≤ M := le_trans h16 (Nat.le_of_not_lt hMk)
      have hM0 : M ≠ 0 := by omega
      have hL16 : k + 16 ≤ M.log2 := (Nat.le_log2 hM0).mpr (Nat.le_of_not_lt hMk)
      have hlow : 2 ^ M.log2 ≤ M := Nat.log2_self_le hM0
      have hhigh : M < 2 ^ (M.log2 + 1) := Nat.lt_log2_self
      by_cases hEq : M.log2 = k + 16
      · -- the division step of `M` itself XORs exactly this shift
        have e : M.log2 - 16 = k := by omega
        conv_rhs => rw [crcDivide_of_ge (show ¬ M < 2 ^ 16 by omega)]
        rw [e]
      · -- recurse on the strictly smaller value after one step of `M`
        have hQlt : polynom <<< k < 2 ^ M.log2 :=
          lt_of_lt_of_le hQ2 (Nat.pow_le_pow_right (by norm_num) (by omega))
        obtain ⟨hx1, hx2⟩ := xor_high_of_one_low hQlt hlow hhigh
        have hx1' : 2 ^ M.log2 ≤ M ^^^ polynom <<< k := by
          rw [Nat.xor_comm]
          exact hx1
        have hx2' : M ^^^ polynom <<< k < 2 ^ (M.log2 + 1) := by
          rw [Nat.xor_comm]
          exact hx2
        have h162 : (2 : Nat) ^ 16 ≤ 2 ^ M.log2 :=
          Nat.pow_le_pow_right (by norm_num) (by omega)
        have hge2 : ¬ (M ^^^ polynom <<< k) < 2 ^ 16 := by omega
        have hlog' : (M ^^^ polynom <<< k).log2 = M.log2 :=
          log2_eq_of_bounds hx1' hx2'
        rw [crcDivide_of_ge hge2, hlog']
        have hre : M ^^^ polynom <<< k ^^^ polynom <<< (M.log2 - 16)
            = (M ^^^ polynom <<< (M.log2 - 16)) ^^^ polynom <<< k := by
          rw [Nat.xor_assoc, Nat.xor_assoc,
              Nat.xor_comm (polynom <<< k)]
        rw [hre, ih _ (crcStep_lt hMge) k]
        exact (crcDivide_of_ge (by omega)).symm

/-- XORing any carry-less multiple of the polynomial into the dividend
does not change the remainder. -/
theorem crcDivide_xor_multiple (X : Nat) {m : Nat}
    (h : IsClMultiple polynom m) : crcDivide (X ^^^ m) = crcDivide X := by
  induction h with
  | zero => rw [Nat.xor_zero]
  | step k m' _ ih => rw [← Nat.xor_assoc, crcDivide_xor_shift, ih]

/-- The difference (XOR) between the dividend and its remainder is a
carry-less multiple of the polynomial. -/
theorem crcDivide_xor_self_multiple (M : Nat) :
    IsClMultiple polynom (M ^^^ crcDivide M) := by
  induction M using Nat.strong_induction_on with
  | _ M ih =>
    by_cases h : M < 2 ^ 16
    · rw [crcDivide_of_lt h, Nat.xor_self]
      exact IsClMultiple.zero
    · rw [crcDivide_of_ge h]
      have hlt := crcStep_lt (Nat.le_of_not_lt h)
      have hrec := ih _ hlt
      have hstep := IsClMultiple.step (p := polynom) (M.log2 - 16) _ hrec
      have he : (M ^^^ polynom <<< (M.log2 - 16)) ^^^
            crcDivide (M ^^^ polynom <<< (M.log2 - 16)) ^^^
            polynom <<< (M.log2 - 16)
          = M ^^^ crcDivide (M ^^^ polynom <<< (M.log2 - 16)) := by
        rw [Nat.xor_assoc (M ^^^ polynom <<< (M.log2 - 16))
              (crcDivide (M ^^^ polynom <<< (M.log2 - 16)))
              (polynom <<< (M.log2 - 16)),
            Nat.xor_comm (crcDivide (M ^^^ polynom <<< (M.log2 - 16)))
              (polynom <<< (M.log2 - 16)),
            ← Nat.xor_assoc, Nat.xor_cancel_right]
      rw [← he]
      exact hstep

theorem IsClMultiple.double {m : Nat} (h : IsClMultiple polynom m) :
    IsClMultiple polynom (2 * m) := by
  induction h with
  | zero =>
    have : 2 * 0 = 0 := by norm_num
    rw [this]
    exact IsClMultiple.zero
  | step k m' _ ih =>
    have he : 2 * (m' ^^^ polynom <<< k) = (2 * m') ^^^ polynom <<< (k + 1) := by
      have h1 : ∀ a : Nat, 2 * a = a <<< 1 := fun a => by
        rw [← mul_pow_eq_shiftLeft]
        ring_nf
      rw [h1, h1, xor_shiftLeft]
      congr 1
      rw [← mul_pow_eq_shiftLeft, ← mul_pow_eq_shiftLeft,
          ← mul_pow_eq_shiftLeft]
      rw [mul_assoc, ← pow_add]
    rw [he]
    exact IsClMultiple.step (k + 1) _ ih

/-- The polynomial, being odd, divides no power of `x`: the remainder of
any `2^s` is nonzero. -/
theorem crcDivide_two_pow_ne_zero (s : Nat) : crcDivide (2 ^ s) ≠ 0 := by
  induction s with
  | zero =>
    rw [pow_zero, crcDivide_of_lt (by norm_num)]
    norm_num
  | succ s ih =>
    have hrlt := crcDivide_lt (2 ^ s)
    have hmul2 : IsClMultiple polynom (2 * (2 ^ s ^^^ crcDivide (2 ^ s))) :=
      (crcDivide_xor_self_multiple (2 ^ s)).double
    have key : crcDivide (2 ^ (s + 1)) = crcDivide (2 * crcDivide (2 ^ s)) := by
      have h1 : ∀ a b : Nat, 2 * (a ^^^ b) = 2 * a ^^^ 2 * b := fun a b => by
        have h2 : ∀ x : Nat, 2 * x = x <<< 1 := fun x => by
          rw [← mul_pow_eq_shiftLeft]
          ring_nf
        rw [h2, h2, h2, xor_shiftLeft]
      have he : (2 * crcDivide (2 ^ s)) ^^^ (2 * (2 ^ s ^^^ crcDivide (2 ^ s)))
          = 2 ^ (s + 1) := by
        rw [h1, xor_left_comm, Nat.xor_self, Nat.xor_zero, pow_succ,
            mul_comm]
      rw [← he, crcDivide_xor_multiple _ hmul2]
    rw [key]
    by_cases h2 : 2 * crcDivide (2 ^ s) < 2 ^ 16
    · rw [crcDivide_of_lt h2]
      intro h0
      exact ih (by omega)
    · have hlo : 2 ^ 16 ≤ 2 * crcDivide (2 ^ s) := Nat.le_of_not_lt h2
      have hhi : 2 * crcDivide (2 ^ s) < 2 ^ 17 := by
        have e : (2 : Nat) ^ 17 = 2 * 2 ^ 16 := by norm_num
        omega
      have hlog : (2 * crcDivide (2 ^ s)).log2 = 16 := by
        apply log2_eq_of_bounds hlo
        have e : (16 : Nat) + 1 = 17 := by norm_num
        rw [e]
        exact hhi
      rw [crcDivide_of_ge h2, hlog]
      have e0 : (16 : Nat) - 16 = 0 := by norm_num
      rw [e0, Nat.shiftLeft_zero]
      have hplo : (2 : Nat) ^ 16 ≤ polynom := by norm_num [polynom]
      have hphi : polynom < 2 ^ (16 + 1) := by norm_num [polynom]
      have hxlt : 2 * crcDivide (2 ^ s) ^^^ polynom < 2 ^ 16 :=
        xor_lt_of_both_high hlo (by
          have e : (16 : Nat) + 1 = 17 := by norm_num
          rw [e]
          exact hhi) hplo hphi
      rw [crcDivide_of_lt hxlt]
      have hodd : (2 * crcDivide (2 ^ s) ^^^ polynom) % 2 = 1 := by
        rw [Nat.xor_mod_two_eq_one]
        have hl : 2 * crcDivide (2 ^ s) % 2 = 0 := by omega
        have hr : polynom % 2 = 1 := by norm_num [polynom]
        simp [hl, hr]
      omega

/-! ### CRC-16 encode/verify -/

theorem crc_encode_eq (data : List Nat) (hne : data ≠ []) :
    CRC16.encode data = some (crcDivide (bytesToNat data * 2 ^ 16)) := by
  unfold CRC16.encode CRC16.get_remainder
  rw [if_neg hne, Nat.add_zero]

theorem crcDivide_mul_add_self (N : Nat) :
    crcDivide (N * 2 ^ 16 + crcDivide (N * 2 ^ 16)) = 0 := by
  have hc := crcDivide_lt (N * 2 ^ 16)
  rw [mul_pow_add_eq_xor _ _ _ hc]
  have hm := crcDivide_xor_self_multiple (N * 2 ^ 16)
  rw [← Nat.zero_xor ((N * 2 ^ 16) ^^^ crcDivide (N * 2 ^ 16)),
      crcDivide_xor_multiple _ hm, crcDivide_of_lt (by norm_num)]

theorem crc_verify_own (data : List Nat) (hne : data ≠ []) :
    CRC16.verify data (crcDivide (bytesToNat data * 2 ^ 16)) = some true := by
  unfold CRC16.verify CRC16.get_remainder
  rw [if_neg hne]
  rw [Option.map_some']
  rw [crcDivide_mul_add_self]
  rfl

/-! ### Byte strings and single-bit flips -/

theorem bytesToNat_lt (b : List Nat) (hb : ∀ x ∈ b, x < 256) :
    bytesToNat b < 2 ^ (8 * b.length) := by
  induction b with
  | nil => simp [bytesToNat]
  | cons x rest ih =>
    have hx : x < 256 := hb x (by simp)
    have hr : bytesToNat rest < 2 ^ (8 * rest.length) :=
      ih (fun y hy => hb y (by simp [hy]))
    show x * 2 ^ (8 * rest.length) + bytesToNat rest <
      2 ^ (8 * (x :: rest).length)
    have e : 8 * (x :: rest).length = 8 * rest.length + 8 := by
      simp [List.length_cons]
      ring
    rw [e, pow_add]
    have h256 : (2 : Nat) ^ 8 = 256 := by norm_num
    calc x * 2 ^ (8 * rest.length) + bytesToNat rest
        < x * 2 ^ (8 * rest.length) + 2 ^ (8 * rest.length) := by omega
      _ = (x + 1) * 2 ^ (8 * rest.length) := by ring
      _ ≤ 256 * 2 ^ (8 * rest.length) := Nat.mul_le_mul_right _ (by omega)
      _ = 2 ^ (8 * rest.length) * 2 ^ 8 := by rw [h256, mul_comm]

theorem bytesToNat_flipBit (b : List Nat) (i j : Nat) (hi : i < b.length)
    (hb : ∀ x ∈ b, x < 256) (hj : j < 8) :
    bytesToNat (flipBit b i j) =
      bytesToNat b ^^^ 2 ^ (8 * (b.length - 1 - i) + j) := by
  induction b generalizing i with
  | nil => simp at hi
  | cons x rest ih =>
    have hrest : ∀ y ∈ rest, y < 256 := fun y hy => hb y (by simp [hy])
    have hR : bytesToNat rest < 2 ^ (8 * rest.length) := bytesToNat_lt rest hrest
    cases i with
    | zero =>
      have hfl : flipBit (x :: rest) 0 j = (x ^^^ 1 <<< j) :: rest := rfl
      have h2j : (1 : Nat) <<< j = 2 ^ j := by
        rw [Nat.shiftLeft_eq, one_mul]
      have hexp : 8 * ((x :: rest).length - 1 - 0) + j = 8 * rest.length + j := by
        simp [List.length_cons]
      rw [hfl, hexp]
      show (x ^^^ 1 <<< j) * 2 ^ (8 * rest.length) + bytesToNat rest =
        (x * 2 ^ (8 * rest.length) + bytesToNat rest) ^^^
          2 ^ (8 * rest.length + j)
      rw [h2j, mul_pow_add_eq_xor _ _ _ hR, mul_pow_add_eq_xor _ _ _ hR,
          xor_mul_pow]
      have hpj : (2 : Nat) ^ j * 2 ^ (8 * rest.length) =
          2 ^ (8 * rest.length + j) := by
        rw [← pow_add]
        ring_nf
      rw [hpj, Nat.xor_assoc, Nat.xor_comm (2 ^ (8 * rest.length + j)),
          ← Nat.xor_assoc]
    | succ i' =>
      have hi' : i' < rest.length := by
        simpa [List.length_cons] using hi
      have hfl : flipBit (x :: rest) (i' + 1) j = x :: flipBit rest i' j := rfl
      have hlen : (flipBit rest i' j).length = rest.length := by
        unfold flipBit
        exact List.length_set ..
      have hexp : 8 * ((x :: rest).length - 1 - (i' + 1)) + j =
          8 * (rest.length - 1 - i') + j := by
        simp only [List.length_cons]
        omega
      rw [hfl, hexp]
      show x * 2 ^ (8 * (flipBit rest i' j).length) + bytesToNat (flipBit rest i' j) =
        (x * 2 ^ (8 * rest.length) + bytesToNat rest) ^^^
          2 ^ (8 * (rest.length - 1 - i') + j)
      rw [hlen, ih i' hi' hrest]
      have hplt : (2 : Nat) ^ (8 * (rest.length - 1 - i') + j) <
          2 ^ (8 * rest.length) := by
        apply Nat.pow_lt_pow_right (by norm_num)
        omega
      have hxlt : bytesToNat rest ^^^ 2 ^ (8 * (rest.length - 1 - i') + j) <
          2 ^ (8 * rest.length) := Nat.xor_lt_two_pow hR hplt
      rw [mul_pow_add_eq_xor _ _ _ hxlt, mul_pow_add_eq_xor _ _ _ hR,
          ← Nat.xor_assoc]

/-- C2.  For every non-empty byte string `b`, `CRC16.verify b
(CRC16.encode b)` succeeds; and flipping any single bit of `b` makes the
verification fail. -/
theorem c2_crc_roundtrip_and_bitflip (b : List Nat) (i j : Nat)
    (hne : b ≠ []) (hbytes : ∀ x ∈ b, x < 256) (hi : i < b.length)
    (hj : j < 8) :
    ∃ c, CRC16.encode b = some c ∧ CRC16.verify b c = some true ∧
      CRC16.verify (flipBit b i j) c = some false := by
  refine ⟨crcDivide (bytesToNat b * 2 ^ 16), crc_encode_eq b hne,
    crc_verify_own b hne, ?_⟩
  have hne' : flipBit b i j ≠ [] := by
    unfold flipBit
    simp [hne]
  unfold CRC16.verify CRC16.get_remainder
  rw [if_neg hne', Option.map_some']
  have hflip := bytesToNat_flipBit b i j hi hbytes hj
  have hc := crcDivide_lt (bytesToNat b * 2 ^ 16)
  have hM' : bytesToNat (flipBit b i j) * 2 ^ 16 +
        crcDivide (bytesToNat b * 2 ^ 16) =
      ((bytesToNat b * 2 ^ 16) ^^^ crcDivide (bytesToNat b * 2 ^ 16)) ^^^
        2 ^ (8 * (b.length - 1 - i) + j + 16) := by
    rw [mul_pow_add_eq_xor _ _ _ hc, hflip, xor_mul_pow]
    have hpp : (2 : Nat) ^ (8 * (b.length - 1 - i) + j) * 2 ^ 16 =
        2 ^ (8 * (b.length - 1 - i) + j + 16) := by
      rw [← pow_add]
    rw [hpp, Nat.xor_assoc, Nat.xor_comm (2 ^ (8 * (b.length - 1 - i) + j + 16)),
        ← Nat.xor_assoc]
  rw [hM']
  have hm : IsClMultiple polynom
      ((bytesToNat b * 2 ^ 16) ^^^ crcDivide (bytesToNat b * 2 ^ 16)) :=
    crcDivide_xor_self_multiple _
  rw [Nat.xor_comm, crcDivide_xor_multiple _ hm]
  have hnz := crcDivide_two_pow_ne_zero (8 * (b.length - 1 - i) + j + 16)
  simp [hnz]

theorem c2_crc_roundtrip_and_bitflip_witness :
    ∃ c, CRC16.encode [104, 105] = some c ∧
      CRC16.verify [104, 105] c = some true ∧
      CRC16.verify (flipBit [104, 105] 1 3) c = some false :=
  c2_crc_roundtrip_and_bitflip [104, 105] 1 3 (by decide) (by decide)
    (by decide) (by decide)

/-! ### Segment codec round trip (C1) -/

theorem codec_roundtrip_general (seq : Int) (data : List Nat) (ack syn fin : Nat)
    (hseq0 : 0 ≤ seq) (hseq1 : seq < 65536)
    (hcomplete : Segment.is_complete ⟨seq, ack, syn, fin, data⟩ = true)
    (hmask : ((ack <<< 2) ||| (syn <<< 1) ||| fin) &&& 0xf8 = 0)
    (hba : (((ack <<< 2) ||| (syn <<< 1) ||| fin) >>> 2) &&& 1 = ack)
    (hbs : (((ack <<< 2) ||| (syn <<< 1) ||| fin) >>> 1) &&& 1 = syn)
    (hbf : ((ack <<< 2) ||| (syn <<< 1) ||| fin) &&& 1 = fin)
    (hsum : ack + syn + fin ≤ 1) :
    ∃ enc, Segment.encode ⟨seq, ack, syn, fin, data⟩ = some enc ∧
      Segment.decode enc = some (some ⟨seq, ack, syn, fin, data⟩, true) := by
  have hpack : Segment.pack_no_checksum ⟨seq, ack, syn, fin, data⟩ =
      seq.toNat / 256 :: seq.toNat % 256 :: 0 ::
        ((ack <<< 2) ||| (syn <<< 1) ||| fin) :: 0 :: 0 :: data := rfl
  have henc : Segment.encode ⟨seq, ack, syn, fin, data⟩ =
      some (seq.toNat / 256 :: seq.toNat % 256 :: 0 ::
        ((ack <<< 2) ||| (syn <<< 1) ||| fin) ::
        crcDivide (bytesToNat (seq.toNat / 256 :: seq.toNat % 256 :: 0 ::
          ((ack <<< 2) ||| (syn <<< 1) ||| fin) :: 0 :: 0 :: data) * 2 ^ 16) / 256 ::
        crcDivide (bytesToNat (seq.toNat / 256 :: seq.toNat % 256 :: 0 ::
          ((ack <<< 2) ||| (syn <<< 1) ||| fin) :: 0 :: 0 :: data) * 2 ^ 16) % 256 ::
        data) := by
    unfold Segment.encode
    rw [if_pos hcomplete, hpack]
    dsimp only
    rw [crc_encode_eq _ (by simp), Option.map_some']
    rfl
  refine ⟨_, henc, ?_⟩
  unfold Segment.decode
  dsimp only
  rw [if_neg (by simp [hmask]), if_neg (by rw [hba, hbs, hbf]; omega)]
  have hsplice : Segment.splice_checksum
      (seq.toNat / 256 :: seq.toNat % 256 :: 0 ::
        ((ack <<< 2) ||| (syn <<< 1) ||| fin) ::
        crcDivide (bytesToNat (seq.toNat / 256 :: seq.toNat % 256 :: 0 ::
          ((ack <<< 2) ||| (syn <<< 1) ||| fin) :: 0 :: 0 :: data) * 2 ^ 16) / 256 ::
        crcDivide (bytesToNat (seq.toNat / 256 :: seq.toNat % 256 :: 0 ::
          ((ack <<< 2) ||| (syn <<< 1) ||| fin) :: 0 :: 0 :: data) * 2 ^ 16) % 256 ::
        data) [0, 0] =
      seq.toNat / 256 :: seq.toNat % 256 :: 0 ::
        ((ack <<< 2) ||| (syn <<< 1) ||| fin) :: 0 :: 0 :: data := rfl
  have hcval : crcDivide (bytesToNat (seq.toNat / 256 :: seq.toNat % 256 :: 0 ::
        ((ack <<< 2) ||| (syn <<< 1) ||| fin) :: 0 :: 0 :: data) * 2 ^ 16) / 256 * 256 +
      crcDivide (bytesToNat (seq.toNat / 256 :: seq.toNat % 256 :: 0 ::
        ((ack <<< 2) ||| (syn <<< 1) ||| fin) :: 0 :: 0 :: data) * 2 ^ 16) % 256 =
      crcDivide (bytesToNat (seq.toNat / 256 :: seq.toNat % 256 :: 0 ::
        ((ack <<< 2) ||| (syn <<< 1) ||| fin) :: 0 :: 0 :: data) * 2 ^ 16) := by
    omega
  rw [hsplice, hcval, crc_verify_own _ (by simp)]
  have hseqeq : ((seq.toNat / 256 * 256 + seq.toNat % 256 : Nat) : Int) = seq := by
    have h1 : seq.toNat / 256 * 256 + seq.toNat % 256 = seq.toNat := by omega
    rw [h1]
    exact Int.toNat_of_nonneg hseq0
  rw [hba, hbs, hbf, hseqeq]
  rfl

/-- C1.  For every segment with `seq_num` in `[0, 2^16)`, one-hot or
all-zero ACK/SYN/FIN flags, and any byte-string payload,
`Segment.decode (Segment.encode s)` succeeds and returns a segment equal
to `s` in all fields together with `payload_intact = true`. -/
theorem c1_codec_roundtrip (s : Segment)
    (hseq0 : 0 ≤ s.seq_num) (hseq1 : s.seq_num < 65536)
    (hack : s.ack = 0 ∨ s.ack = 1) (hsyn : s.syn = 0 ∨ s.syn = 1)
    (hfin : s.fin = 0 ∨ s.fin = 1) (hsum : s.ack + s.syn + s.fin ≤ 1)
    (hbytes : ∀ x ∈ s.data, x < 256) :
    ∃ enc, Segment.encode s = some enc ∧
      Segment.decode enc = some (some s, true) := by
  obtain ⟨seq, ack, syn, fin, data⟩ := s
  simp only at hseq0 hseq1 hack hsyn hfin hsum
  have hcomplete : Segment.is_complete ⟨seq, ack, syn, fin, data⟩ = true := by
    simp [Segment.is_complete]
    omega
  rcases hack with hA | hA <;> rcases hsyn with hS | hS <;>
    rcases hfin with hF | hF <;> subst hA <;> subst hS <;> subst hF <;>
    first
      | (exact absurd hsum (by decide))
      | (exact codec_roundtrip_general seq data _ _ _ hseq0 hseq1 hcomplete
          (by decide) (by decide) (by decide) (by decide) hsum)

theorem c1_codec_roundtrip_witness :
    ∃ enc, Segment.encode ⟨5, 0, 0, 0, [104, 105]⟩ = some enc ∧
      Segment.decode enc = some (some ⟨5, 0, 0, 0, [104, 105]⟩, true) :=
  c1_codec_roundtrip ⟨5, 0, 0, 0, [104, 105]⟩ (by decide) (by decide)
    (Or.inl rfl) (Or.inl rfl) (Or.inl rfl) (by decide) (by decide)

/-! ### Sender cumulative ACK handling (C3) -/

theorem queue_span_le (base d : Int) (q : List Segment) : ∀ cur : Int,
    queue_span base cur q = some d → cur ≤ d := by
  induction q with
  | nil =>
    intro cur h
    unfold queue_span at h
    exact le_of_eq (Option.some.inj h)
  | cons t rest ih =>
    intro cur h
    unfold queue_span at h
    split_ifs at h with hc
    · have h1 := ih _ h
      have h2 : (0 : Int) ≤ (t.data.length : Int) := Int.natCast_nonneg _
      omega

theorem queue_span_elem (base d : Int) (q : List Segment) : ∀ cur : Int,
    queue_span base cur q = some d → 0 ≤ cur →
    ∀ s ∈ q, ∃ o : Int, cur ≤ o ∧ 0 ≤ o ∧ o + s.data.length ≤ d ∧
      s.seq_num = (base + o) % 65536 ∧ s.data.length ≠ 0 := by
  induction q with
  | nil =>
    intro cur h hc s hs
    simp at hs
  | cons t rest ih =>
    intro cur h hc s hs
    unfold queue_span at h
    split_ifs at h with hcond
    · have hl : (0 : Int) ≤ (t.data.length : Int) := Int.natCast_nonneg _
      rcases List.mem_cons.mp hs with rfl | hmem
      · exact ⟨cur, le_rfl, hc, queue_span_le _ _ _ _ h, hcond.1, hcond.2⟩
      · obtain ⟨o, ho1, ho2, ho3, ho4, ho5⟩ :=
          ih _ h (by omega) s hmem
        exact ⟨o, by omega, ho2, ho3, ho4, ho5⟩

/-- Walking the pop loop of the cumulative-ACK branch over a contiguous
queue: either everything is popped (exactly when the ACK sits at the end
of the span) or the loop stops at a segment that ends strictly after the
ACK and starts at or before it. -/
theorem dropWhile_span (base k d : Int) (hb0 : 0 ≤ base) (hb1 : base < 65536)
    (hd : d ≤ 32767) (hk1 : 1 ≤ k) (hkd : k ≤ d) (q : List Segment) :
    ∀ cur : Int, 0 ≤ cur → cur ≤ k →
    queue_span base cur q = some d →
    (q.dropWhile (Sender.acked_pred ((base + k) % 65536)) = [] ∧ k = d) ∨
    (∃ h t o, q.dropWhile (Sender.acked_pred ((base + k) % 65536)) = h :: t ∧
      0 ≤ o ∧ o ≤ k ∧ h.seq_num = (base + o) % 65536 ∧ h.data.length ≠ 0 ∧
      k < o + h.data.length ∧
      queue_span base o (h :: t) = some d) := by
  induction q with
  | nil =>
    intro cur hc0 hck h
    unfold queue_span at h
    have : cur = d := Option.some.inj h
    exact Or.inl ⟨rfl, by omega⟩
  | cons s rest ih =>
    intro cur hc0 hck h
    unfold queue_span at h
    split_ifs at h with hcond
    · obtain ⟨hseq, hlen⟩ := hcond
      have hl1 : (1 : Int) ≤ (s.data.length : Int) := by
        have : s.data.length ≠ 0 := hlen
        omega
      have hle : cur + (s.data.length : Int) ≤ d := queue_span_le _ _ _ _ h
      have hend : s.end_seq_num = (base + (cur + s.data.length)) % 65536 := by
        unfold Segment.end_seq_num
        rw [hseq, wrap_add_mod]
      have hpred : Sender.acked_pred ((base + k) % 65536) s =
          decide (wrap_cmp ((base + (cur + s.data.length)) % 65536)
            ((base + k) % 65536) ≤ 0) := by
        unfold Sender.acked_pred
        rw [hend]
      have hcmp := wrap_cmp_mod base (cur + s.data.length) k
        (by omega) (by omega) (by omega) (by omega) (by omega)
      by_cases hcase : cur + (s.data.length : Int) ≤ k
      · -- the head segment is popped; continue
        have hptrue : Sender.acked_pred ((base + k) % 65536) s = true := by
          rw [hpred, hcmp]
          split_ifs <;> simp_all <;> omega
        rw [List.dropWhile_cons, hptrue, if_pos rfl]
        exact ih _ (by omega) hcase h
      · -- the head segment survives; the loop stops here
        have hpfalse : Sender.acked_pred ((base + k) % 65536) s = false := by
          rw [hpred, hcmp]
          split_ifs <;> simp_all <;> omega
        rw [List.dropWhile_cons, hpfalse]
        simp only [Bool.false_eq_true, if_false]
        refine Or.inr ⟨s, rest, cur, rfl, hc0, hck, hseq, hlen, by omega, ?_⟩
        unfold queue_span
        rw [if_pos ⟨hseq, hlen⟩]
        exact h

/-- C3.  For an ACK `a` strictly above `snd_base` and at most
`next_seqnum` (offset `k` with `1 ≤ k ≤ d`, where `d` is the span of the
unacked queue and the window is below half the sequence space),
`handle_ack` pops from the head of the queue every segment ending at or
before `a`, sets `snd_base := a` and `dup_acks := 0`, and sends nothing.
If the queue empties — exactly when `a = next_seqnum` — the
retransmission timer is cancelled and state `closing` advances to
`fin_wait`; otherwise the timer is re-armed and, when `a` falls strictly
inside the surviving head segment, that segment loses its first
`a - seq_num` bytes and its `seq_num` becomes `a`. -/
theorem c3_handle_ack_cumulative (st : Sender.M) (a k d : Int)
    (hb0 : 0 ≤ st.scb.snd_base) (hb1 : st.scb.snd_base < 65536)
    (hspan : queue_span st.scb.snd_base 0 st.scb.unacked_queue = some d)
    (hnext : st.scb.next_seqnum = (st.scb.snd_base + d) % 65536)
    (hd : d ≤ 32767) (hk1 : 1 ≤ k) (hkd : k ≤ d)
    (hack : a = (st.scb.snd_base + k) % 65536) :
    ∃ st', Sender.handle_ack st a = some (st', []) ∧
      st'.scb.snd_base = a ∧ st'.scb.dup_acks = 0 ∧
      st'.scb.next_seqnum = st.scb.next_seqnum ∧
      (∀ seg ∈ st'.scb.unacked_queue, wrap_cmp seg.end_seq_num a = 1) ∧
      (st'.scb.unacked_queue = [] ↔ a = st.scb.next_seqnum) ∧
      (st'.scb.unacked_queue = [] →
        st'.rttimer = false ∧
        st'.scb.state =
          (if st.scb.state = "closing" then "fin_wait" else st.scb.state)) ∧
      (st'.scb.unacked_queue ≠ [] →
        st'.rttimer = true ∧ st'.scb.state = st.scb.state) ∧
      (∀ h t, st.scb.unacked_queue.dropWhile (Sender.acked_pred a) = h :: t →
        st'.scb.unacked_queue =
          (if wrap_sub a h.seq_num ≠ 0 then
            Segment.mk a h.ack h.syn h.fin
              (h.data.drop (wrap_sub a h.seq_num).toNat)
          else h) :: t) := by
  have hd0 : 0 ≤ d := le_trans (by omega) (le_trans hk1 hkd)
  -- the guards of handle_ack
  have hmod0 : (st.scb.snd_base + 0) % 65536 = st.scb.snd_base := by omega
  have hcmp_ab := wrap_cmp_mod st.scb.snd_base k 0
    (by omega) (by omega) (by omega) (by omega) (by omega)
  rw [hmod0] at hcmp_ab
  have hcmp_ab' : wrap_cmp a st.scb.snd_base = 1 := by
    rw [hack, hcmp_ab]
    split_ifs <;> omega
  have hcmp_ba := wrap_cmp_mod st.scb.snd_base 0 k
    (by omega) (by omega) (by omega) (by omega) (by omega)
  rw [hmod0] at hcmp_ba
  have hcmp_ba' : wrap_cmp st.scb.snd_base a = -1 := by
    rw [hack, hcmp_ba]
    split_ifs <;> omega
  have hcmp_an := wrap_cmp_mod st.scb.snd_base k d
    (by omega) (by omega) (by omega) (by omega) (by omega)
  have hcmp_an' : wrap_cmp a st.scb.next_seqnum ≤ 0 := by
    rw [hack, hnext, hcmp_an]
    split_ifs <;> omega
  have hne : a ≠ st.scb.snd_base := by
    rw [hack]
    omega
  have haeq : a = st.scb.next_seqnum ↔ k = d := by
    rw [hack, hnext]
    omega
  unfold Sender.handle_ack
  rw [if_neg (by rw [hcmp_ab']; decide), if_neg (by omega), if_neg hne,
      if_neg (not_not_intro ⟨hcmp_ba', hcmp_an'⟩)]
  dsimp only [Sender.stop_rttimer, Sender.set_rttimer]
  have hdrop := dropWhile_span st.scb.snd_base k d hb0 hb1 hd hk1 hkd
    st.scb.unacked_queue 0 le_rfl (by omega) hspan
  rw [← hack] at hdrop
  -- survivors end strictly after the ACK, given their offsets
  have hfinal : ∀ (seg : Segment) (o' : Int),
      seg.seq_num = (st.scb.snd_base + o') % 65536 → 0 ≤ o' →
      o' + (seg.data.length : Int) ≤ d → k < o' + (seg.data.length : Int) →
      wrap_cmp seg.end_seq_num a = 1 := by
    intro seg o' hseq' ho'0 ho'd ho'k
    have hend : seg.end_seq_num =
        (st.scb.snd_base + (o' + seg.data.length)) % 65536 := by
      unfold Segment.end_seq_num
      rw [hseq', wrap_add_mod]
    have hcmp := wrap_cmp_mod st.scb.snd_base (o' + seg.data.length) k
      (by omega) (by omega) (by omega) (by omega) (by omega)
    rw [hend, hack, hcmp]
    split_ifs <;> omega
  by_cases hkd2 : k = d
  · -- the ACK covers the whole span: the queue empties
    have hq1 : st.scb.unacked_queue.dropWhile (Sender.acked_pred a) = [] := by
      rcases hdrop with ⟨hq, _⟩ | ⟨h, t, o, _, _, ho2, _, hlen, hko, hsp⟩
      · exact hq
      · exfalso
        have hle2 : o + (h.data.length : Int) ≤ d := by
          unfold queue_span at hsp
          split_ifs at hsp with hc
          exact queue_span_le _ _ _ _ hsp
        omega
    rw [hq1]
    have heqnext : a = st.scb.next_seqnum := haeq.mpr hkd2
    rw [if_pos heqnext]
    by_cases hst : st.scb.state = "closing"
    · rw [if_pos hst]
      refine ⟨_, rfl, rfl, rfl, rfl, ?_, ?_, ?_, ?_, ?_⟩
      · intro seg hseg
        simp at hseg
      · simp [heqnext]
      · intro _
        exact ⟨rfl, by rw [if_pos hst]⟩
      · intro hcontra
        simp at hcontra
      · intro h t hht
        simp at hht
    · rw [if_neg hst]
      refine ⟨_, rfl, rfl, rfl, rfl, ?_, ?_, ?_, ?_, ?_⟩
      · intro seg hseg
        simp at hseg
      · simp [heqnext]
      · intro _
        exact ⟨rfl, by rw [if_neg hst]⟩
      · intro hcontra
        simp at hcontra
      · intro h t hht
        simp at hht
  · -- segments survive: the head may be trimmed, the timer is re-armed
    rcases hdrop with ⟨_, hkd3⟩ | ⟨h, t, o, hq1, ho1, ho2, hseq, hlen, hko, hsp⟩
    · exact absurd hkd3 hkd2
    have hneqnext : ¬ a = st.scb.next_seqnum := fun hc => hkd2 (haeq.mp hc)
    have hle2 : o + (h.data.length : Int) ≤ d := by
      unfold queue_span at hsp
      split_ifs at hsp with hc
      exact queue_span_le _ _ _ _ hsp
    have hsp_t : queue_span st.scb.snd_base (o + h.data.length) t = some d := by
      unfold queue_span at hsp
      split_ifs at hsp with hc
      exact hsp
    have htrim : wrap_sub a h.seq_num = k - o := by
      rw [hack, hseq, wrap_sub_mod]
      omega
    have hlen1 : 1 ≤ (h.data.length : Int) := by
      have : h.data.length ≠ 0 := hlen
      omega
    rw [hq1, if_neg hneqnext]
    refine ⟨_, rfl, rfl, rfl, rfl, ?_, ?_, ?_, ?_, ?_⟩
    · -- every surviving segment ends strictly after the ACK
      intro seg hseg
      simp only [List.mem_cons] at hseg
      rcases hseg with rfl | hmem
      · -- the (possibly trimmed) head
        split_ifs with htr
        · -- trimmed head: starts at the ACK, keeps its tail bytes
          have hdroplen : ((h.data.drop (wrap_sub a h.seq_num).toNat).length : Int)
              = (h.data.length : Int) - (k - o) := by
            rw [List.length_drop, htrim]
            have hnn : ((k - o).toNat : Int) = k - o := by omega
            push_cast
            omega
          apply hfinal _ k
          · dsimp
            exact hack
          · omega
          · dsimp
            rw [hdroplen]
            omega
          · dsimp
            rw [hdroplen]
            omega
        · -- untrimmed head: the ACK sits exactly at its start
          have hko2 : k = o := by
            rw [htrim] at htr
            omega
          exact hfinal h o hseq ho1 hle2 (by omega)
      · -- deeper segments start at or after the end of the head
        obtain ⟨o2, ho21, ho22, ho23, ho24, _⟩ :=
          queue_span_elem st.scb.snd_base d t (o + h.data.length) hsp_t
            (by omega) seg hmem
        exact hfinal seg o2 ho24 ho22 ho23 (by omega)
    · exact iff_of_false (by simp) hneqnext
    · intro hcontra
      simp at hcontra
    · intro _
      exact ⟨rfl, rfl⟩
    · intro h2 t2 hht
      injection hht with hh ht
      subst hh
      subst ht
      rfl

theorem c3_handle_ack_cumulative_witness :
    ∃ st', Sender.handle_ack
        ⟨⟨10, 15, 2, [⟨10, 0, 0, 0, [65, 66, 67]⟩, ⟨13, 0, 0, 0, [68, 69]⟩],
          "est"⟩, ⟨0, 0, 0, 0, 0, 0, 0, 0⟩, false⟩ 13 = some (st', []) ∧
      st'.scb.snd_base = 13 ∧ st'.scb.dup_acks = 0 ∧
      st'.scb.next_seqnum = 15 ∧
      (∀ seg ∈ st'.scb.unacked_queue, wrap_cmp seg.end_seq_num 13 = 1) ∧
      (st'.scb.unacked_queue = [] ↔ (13 : Int) = 15) ∧
      (st'.scb.unacked_queue = [] →
        st'.rttimer = false ∧
        st'.scb.state = (if "est" = "closing" then "fin_wait" else "est")) ∧
      (st'.scb.unacked_queue ≠ [] →
        st'.rttimer = true ∧ st'.scb.state = "est") ∧
      (∀ h t, List.dropWhile (Sender.acked_pred 13)
          [(⟨10, 0, 0, 0, [65, 66, 67]⟩ : Segment), ⟨13, 0, 0, 0, [68, 69]⟩] =
          h :: t →
        st'.scb.unacked_queue =
          (if wrap_sub 13 h.seq_num ≠ 0 then
            Segment.mk 13 h.ack h.syn h.fin
              (h.data.drop (wrap_sub 13 h.seq_num).toNat)
          else h) :: t) :=
  c3_handle_ack_cumulative
    ⟨⟨10, 15, 2, [⟨10, 0, 0, 0, [65, 66, 67]⟩, ⟨13, 0, 0, 0, [68, 69]⟩],
      "est"⟩, ⟨0, 0, 0, 0, 0, 0, 0, 0⟩, false⟩ 13 3 5
    (by decide) (by decide) (by decide) (by decide) (by decide) (by decide)
    (by decide) (by decide)

/-! ### Receiver reorder buffer (C4) -/

/-- C4, counterexample.  The insertion loop of `process_data_segment`
checks overlap only against the first buffered segment with a strictly
greater start; it never checks overlap with the predecessor.  Starting
from a buffer satisfying the invariant (one segment covering offsets
`[5, 8)` of a 1000-byte window), a data segment covering `[6, 9)` passes
every screen, is appended, and the call returns normally with two
overlapping buffered segments — each one starts strictly before the
other ends, and the stored comment's invariant is violated. -/
theorem c4_counterexample :
    buf_chain 0 1 1000 [⟨5, 0, 0, 0, [65, 66, 67]⟩] = true ∧
    ∃ scb' stats',
      Receiver.process_data_segment 1000
        ⟨0, [⟨5, 0, 0, 0, [65, 66, 67]⟩], "est"⟩
        ⟨0, 0, 0, 0, 0, 0, 0, 0, none⟩
        ⟨6, 0, 0, 0, [70, 71, 72]⟩ = some (scb', stats', []) ∧
      scb'.buffer = [⟨5, 0, 0, 0, [65, 66, 67]⟩, ⟨6, 0, 0, 0, [70, 71, 72]⟩] ∧
      wrap_cmp (Segment.end_seq_num ⟨5, 0, 0, 0, [65, 66, 67]⟩)
        (Segment.mk 6 0 0 0 [70, 71, 72]).seq_num = 1 ∧
      wrap_cmp (Segment.end_seq_num ⟨6, 0, 0, 0, [70, 71, 72]⟩)
        (Segment.mk 5 0 0 0 [65, 66, 67]).seq_num = 1 := by
  exact ⟨by decide, ⟨0, [⟨5, 0, 0, 0, [65, 66, 67]⟩, ⟨6, 0, 0, 0, [70, 71, 72]⟩],
    "est"⟩, ⟨3, 0, 1, 0, 0, 0, 0, 0, none⟩, by decide, by decide, by decide,
    by decide⟩

theorem buf_chain_cons (base cur hi : Int) (s : Segment) (rest : List Segment) :
    buf_chain base cur hi (s :: rest) = true ↔
      (0 ≤ s.seq_num ∧ s.seq_num < 65536) ∧ cur ≤ seq_off base s.seq_num ∧
      s.data.length ≠ 0 ∧
      seq_off base s.seq_num + (s.data.length : Int) ≤ hi ∧
      buf_chain base (seq_off base s.seq_num + s.data.length) hi rest = true := by
  simp [buf_chain]
  tauto

theorem seq_off_spec (base x : Int) (hb0 : 0 ≤ base) (hb1 : base < 65536)
    (hx0 : 0 ≤ x) (hx1 : x < 65536) :
    x = (base + seq_off base x) % 65536 ∧ 0 ≤ seq_off base x ∧
      seq_off base x < 65536 := by
  unfold seq_off wrap_sub SEQ_NUM_SPACE
  omega

theorem seq_off_of_mod (base o : Int) (hb0 : 0 ≤ base) (hb1 : base < 65536)
    (ho0 : 0 ≤ o) (ho1 : o < 65536) :
    seq_off base ((base + o) % 65536) = o := by
  unfold seq_off wrap_sub SEQ_NUM_SPACE
  omega

/-- Every element of a chained buffer sits between the cursor and the
window bound. -/
theorem buf_chain_elem (base hi : Int) (q : List Segment) : ∀ cur : Int,
    buf_chain base cur hi q = true →
    ∀ s ∈ q, cur ≤ seq_off base s.seq_num ∧
      seq_off base s.seq_num + (s.data.length : Int) ≤ hi ∧
      0 ≤ s.seq_num ∧ s.seq_num < 65536 ∧ s.data.length ≠ 0 := by
  induction q with
  | nil =>
    intro cur h s hs
    simp at hs
  | cons t rest ih =>
    intro cur h s hs
    rw [buf_chain_cons] at h
    obtain ⟨hr, hcur, hlen, hhi, hrest⟩ := h
    rcases List.mem_cons.mp hs with rfl | hmem
    · exact ⟨hcur, hhi, hr.1, hr.2, hlen⟩
    · obtain ⟨h1, h2, h3, h4, h5⟩ := ih _ hrest s hmem
      have : (0 : Int) ≤ (t.data.length : Int) := Int.natCast_nonneg _
      exact ⟨by omega, h2, h3, h4, h5⟩

/-- A chained buffer with cursor at least 1 has every segment strictly
after the base, in the modular-compare sense. -/
theorem buf_chain_all_after (base hi : Int) (q : List Segment) (cur : Int)
    (h : buf_chain base cur hi q = true) (hc : 1 ≤ cur)
    (hb0 : 0 ≤ base) (hb1 : base < 65536) (hhi : hi ≤ 32767) :
    ∀ s ∈ q, wrap_cmp s.seq_num base = 1 := by
  intro s hs
  obtain ⟨h1, h2, h3, h4, h5⟩ := buf_chain_elem base hi q cur h s hs
  have hlen1 : 1 ≤ (s.data.length : Int) := by
    have : s.data.length ≠ 0 := h5
    omega
  have hoff := seq_off_spec base s.seq_num hb0 hb1 h3 h4
  have hmod0 : (base + 0) % 65536 = base := by omega
  have hcmp := wrap_cmp_mod base (seq_off base s.seq_num) 0
    (by omega) (by omega) (by omega) (by omega) (by omega)
  rw [hmod0] at hcmp
  rw [hoff.1, hcmp]
  split_ifs <;> omega

/-- A chained buffer is pairwise non-overlapping in offset view. -/
theorem buf_chain_pairwise (base hi : Int) (q : List Segment) : ∀ cur : Int,
    buf_chain base cur hi q = true →
    List.Pairwise (fun s1 s2 =>
      seq_off base s1.seq_num + (s1.data.length : Int) ≤ seq_off base s2.seq_num ∨
      seq_off base s2.seq_num + (s2.data.length : Int) ≤ seq_off base s1.seq_num)
      q := by
  induction q with
  | nil =>
    intro cur h
    exact List.Pairwise.nil
  | cons t rest ih =>
    intro cur h
    rw [buf_chain_cons] at h
    obtain ⟨hr, hcur, hlen, hhi, hrest⟩ := h
    refine List.Pairwise.cons ?_ (ih _ hrest)
    intro s hs
    obtain ⟨h1, _, _, _, _⟩ := buf_chain_elem base hi rest _ hrest s hs
    exact Or.inl h1

theorem buf_chain_lower_mono (base hi : Int) (q : List Segment)
    (cur cur' : Int) (h : buf_chain base cur hi q = true) (hc : cur' ≤ cur) :
    buf_chain base cur' hi q = true := by
  cases q with
  | nil => rfl
  | cons t rest =>
    rw [buf_chain_cons] at h ⊢
    obtain ⟨hr, hcur, hlen, hhi, hrest⟩ := h
    exact ⟨hr, by omega, hlen, hhi, hrest⟩

theorem buf_chain_hi_mono (base : Int) (q : List Segment) : ∀ (cur hi hi' : Int),
    buf_chain base cur hi q = true → hi ≤ hi' →
    buf_chain base cur hi' q = true := by
  induction q with
  | nil =>
    intro cur hi hi' h hh
    rfl
  | cons t rest ih =>
    intro cur hi hi' h hh
    rw [buf_chain_cons] at h ⊢
    obtain ⟨hr, hcur, hlen, hhi, hrest⟩ := h
    exact ⟨hr, hcur, hlen, by omega, ih _ _ _ hrest hh⟩

/-- Rebasing a chained buffer to a new base that lies strictly before
every buffered segment. -/
theorem buf_chain_rebase (base hi : Int) (hb0 : 0 ≤ base) (hb1 : base < 65536)
    (hhi : hi ≤ 32767) (q : List Segment) : ∀ (cur j : Int),
    buf_chain base cur hi q = true → 0 ≤ j → j ≤ cur → 0 ≤ hi →
    buf_chain ((base + j) % 65536) (cur - j) (hi - j) q = true := by
  induction q with
  | nil =>
    intro cur j h hj0 hjc hhi0
    rfl
  | cons t rest ih =>
    intro cur j h hj0 hjc hhi0
    rw [buf_chain_cons] at h ⊢
    obtain ⟨hr, hcur, hlen, hhit, hrest⟩ := h
    have hlen1 : 1 ≤ (t.data.length : Int) := by
      have : t.data.length ≠ 0 := hlen
      omega
    have hoffnew : seq_off ((base + j) % 65536) t.seq_num =
        seq_off base t.seq_num - j := by
      have hj2 : j ≤ seq_off base t.seq_num := by omega
      unfold seq_off wrap_sub SEQ_NUM_SPACE at hj2 ⊢
      omega
    refine ⟨hr, ?_, hlen, ?_, ?_⟩
    · rw [hoffnew]
      omega
    · rw [hoffnew]
      omega
    · rw [hoffnew]
      have := ih _ j hrest hj0 (by omega) hhi0
      have he : seq_off base t.seq_num + (t.data.length : Int) - j =
          seq_off base t.seq_num - j + (t.data.length : Int) := by
        omega
      rw [← he]
      exact this

/-- Walking the in-order delivery loop over a chained buffer: the new
`rcv_base` advances to some offset `j'`, and the remaining buffer is
still a chain whose first segment does not start at `j'`. -/
theorem pop_in_order_chain (base hi : Int) (hb0 : 0 ≤ base)
    (hb1 : base < 65536) (hhi : hi ≤ 32767) (q : List Segment) :
    ∀ cur j : Int,
    buf_chain base cur hi q = true → 0 ≤ j → j ≤ hi →
    ∃ j', j ≤ j' ∧ j' ≤ hi ∧
      (Receiver.pop_in_order ((base + j) % 65536) q).1 = (base + j') % 65536 ∧
      ((Receiver.pop_in_order ((base + j) % 65536) q).2.1 = [] ∨
        ∃ h t, (Receiver.pop_in_order ((base + j) % 65536) q).2.1 = h :: t ∧
          seq_off base h.seq_num ≠ j' ∧
          buf_chain base (seq_off base h.seq_num) hi (h :: t) = true) := by
  induction q with
  | nil =>
    intro cur j hch hj0 hjhi
    exact ⟨j, le_rfl, hjhi, rfl, Or.inl rfl⟩
  | cons h rest ih =>
    intro cur j hch hj0 hjhi
    rw [buf_chain_cons] at hch
    obtain ⟨hr, hcur, hlen, hhih, hrest⟩ := hch
    have hlen1 : 1 ≤ (h.data.length : Int) := by
      have : h.data.length ≠ 0 := hlen
      omega
    have hoff := seq_off_spec base h.seq_num hb0 hb1 hr.1 hr.2
    by_cases hcase : seq_off base h.seq_num = j
    · -- the head is delivered; keep popping
      have hveq : h.seq_num = (base + j) % 65536 := by
        rw [← hcase]
        exact hoff.1
      rw [hcase] at hrest hhih
      have hend : h.end_seq_num = (base + (j + h.data.length)) % 65536 := by
        unfold Segment.end_seq_num
        rw [hveq, wrap_add_mod]
      have hpop : Receiver.pop_in_order ((base + j) % 65536) (h :: rest) =
          ((Receiver.pop_in_order h.end_seq_num rest).1,
           (Receiver.pop_in_order h.end_seq_num rest).2.1,
           h :: (Receiver.pop_in_order h.end_seq_num rest).2.2) := by
        simp only [Receiver.pop_in_order]
        rw [if_pos hveq]
      obtain ⟨j', hj'1, hj'2, hj'3, hj'4⟩ :=
        ih (j + h.data.length) (j + h.data.length) hrest (by omega) (by omega)
      rw [← hend] at hj'3 hj'4
      refine ⟨j', by omega, hj'2, ?_, ?_⟩
      · rw [hpop]
        exact hj'3
      · rw [hpop]
        exact hj'4
    · -- the head is out of order; the loop stops
      have hvne : ¬ h.seq_num = (base + j) % 65536 := by
        rw [hoff.1]
        intro hc
        exact hcase (by omega)
      have hpop : Receiver.pop_in_order ((base + j) % 65536) (h :: rest) =
          ((base + j) % 65536, h :: rest, []) := by
        simp only [Receiver.pop_in_order]
        rw [if_neg hvne]
      refine ⟨j, le_rfl, hjhi, by rw [hpop], Or.inr ⟨h, rest, by rw [hpop], hcase, ?_⟩⟩
      rw [buf_chain_cons]
      exact ⟨hr, le_rfl, hlen, hhih, hrest⟩

/-- Inserting an out-of-order segment into a chained buffer keeps the
chain, provided no buffered segment that starts strictly before the new
one overlaps into it (the predecessor check the code itself omits; the
same-start and successor overlaps are rejected by the code with a
panic, i.e. land in `none`). -/
theorem buffer_insert_chain (base hi : Int) (hb0 : 0 ≤ base)
    (hb1 : base < 65536) (hhi : hi ≤ 32767) (segment : Segment) (os : Int)
    (hseg : segment.seq_num = (base + os) % 65536)
    (hos0 : 0 ≤ os) (hsl : segment.data.length ≠ 0)
    (hin : os + (segment.data.length : Int) ≤ hi)
    (q : List Segment) : ∀ c : Int,
    buf_chain base c hi q = true → 0 ≤ c → c ≤ os →
    (∀ t ∈ q, seq_off base t.seq_num < os →
      seq_off base t.seq_num + (t.data.length : Int) ≤ os) →
    ∀ r, Receiver.buffer_insert segment q = some r →
    buf_chain base c hi r.1 = true := by
  have hsl1 : 1 ≤ (segment.data.length : Int) := by
    have : segment.data.length ≠ 0 := hsl
    omega
  have hos1 : os < 65536 := by omega
  induction q with
  | nil =>
    intro c hch hc0 hcos hstr r hr
    simp only [Receiver.buffer_insert, Option.some.injEq] at hr
    subst hr
    rw [buf_chain_cons]
    refine ⟨⟨?_, ?_⟩, ?_, hsl, ?_, rfl⟩
    · rw [hseg]
      omega
    · rw [hseg]
      omega
    · rw [hseg, seq_off_of_mod base os hb0 hb1 hos0 hos1]
      exact hcos
    · rw [hseg, seq_off_of_mod base os hb0 hb1 hos0 hos1]
      exact hin
  | cons b rest ih =>
    intro c hch hc0 hcos hstr r hr
    rw [buf_chain_cons] at hch
    obtain ⟨hbr, hbcur, hblen, hbhi, hbrest⟩ := hch
    have hblen1 : 1 ≤ (b.data.length : Int) := by
      have : b.data.length ≠ 0 := hblen
      omega
    have hboff := seq_off_spec base b.seq_num hb0 hb1 hbr.1 hbr.2
    have hbofflt : seq_off base b.seq_num ≤ 32766 := by omega
    have hsoff : seq_off base segment.seq_num = os := by
      rw [hseg, seq_off_of_mod base os hb0 hb1 hos0 hos1]
    have heqiff : b.seq_num = segment.seq_num ↔ seq_off base b.seq_num = os := by
      rw [hseg]
      constructor
      · intro hc
        rw [hc, seq_off_of_mod base os hb0 hb1 hos0 hos1]
      · intro hc
        rw [hboff.1, hc]
    have hcmpiff := wrap_cmp_mod base (seq_off base b.seq_num) os
      (by omega) (by omega) (by omega) (by omega) (by omega)
    simp only [Receiver.buffer_insert] at hr
    split_ifs at hr with hq1 hq2 hq3 hq4
    · -- identical duplicate: dropped, buffer unchanged
      obtain rfl := Option.some.inj hr
      show buf_chain base c hi (b :: rest) = true
      rw [buf_chain_cons]
      exact ⟨hbr, hbcur, hblen, hbhi, hbrest⟩
    · -- insert strictly before `b`
      obtain rfl := Option.some.inj hr
      show buf_chain base c hi (segment :: b :: rest) = true
      have hoblt : os < seq_off base b.seq_num := by
        rw [hboff.1, hseg] at hq3
        rw [wrap_cmp_mod base (seq_off base b.seq_num) os
          (by omega) (by omega) (by omega) (by omega) (by omega)] at hq3
        by_contra hcon
        have : seq_off base b.seq_num ≤ os := by omega
        rcases lt_or_eq_of_le this with hlt | heq2
        · simp only [if_pos hlt] at hq3
          omega
        · rw [heq2] at heqiff
          exact hq1 (heqiff.mpr rfl)
    -- the code checked that the new segment does not run into `b`
      have hendle : os + (segment.data.length : Int) ≤ seq_off base b.seq_num := by
        have hend : segment.end_seq_num =
            (base + (os + segment.data.length)) % 65536 := by
          unfold Segment.end_seq_num
          rw [hseg, wrap_add_mod]
        rw [hend, hboff.1] at hq4
        rw [wrap_cmp_mod base (os + segment.data.length) (seq_off base b.seq_num)
          (by omega) (by omega) (by omega) (by omega) (by omega)] at hq4
        split_ifs at hq4 with hA hB
        · omega
        · omega
        · exact absurd rfl hq4
      rw [buf_chain_cons, hsoff]
      refine ⟨⟨by rw [hseg]; omega, by rw [hseg]; omega⟩, by omega,
        hsl, by omega, ?_⟩
      rw [buf_chain_cons]
      exact ⟨hbr, by omega, hblen, hbhi, hbrest⟩
    · -- walk past `b`
      have hoblt : seq_off base b.seq_num < os := by
        rcases lt_trichotomy (seq_off base b.seq_num) os with hlt | heq2 | hgt
        · exact hlt
        · exact absurd (heqiff.mpr heq2) hq1
        · exfalso
          apply hq3
          rw [hboff.1, hseg]
          rw [wrap_cmp_mod base (seq_off base b.seq_num) os
            (by omega) (by omega) (by omega) (by omega) (by omega)]
          rw [if_neg (by omega), if_neg (by omega)]
      have hbend : seq_off base b.seq_num + (b.data.length : Int) ≤ os :=
        hstr b (List.mem_cons_self b rest) hoblt
      rcases hrec : Receiver.buffer_insert segment rest with _ | r2
      · rw [hrec] at hr
        simp at hr
      · rw [hrec] at hr
        simp only [Option.map_some', Option.some.injEq] at hr
        subst hr
        have hch2 := ih _ hbrest (by omega) hbend
          (fun t ht ho => hstr t (List.mem_cons_of_mem b ht) ho) r2 hrec
        show buf_chain base c hi (b :: r2.1) = true
        rw [buf_chain_cons]
        exact ⟨hbr, hbcur, hblen, hbhi, hch2⟩

/-- C4 (corrected): after every successful (non-panicking) call to
`process_data_segment`, every segment held in the receiver's reorder
buffer starts strictly after `rcv_base` in modular comparison and no two
buffered segments overlap — provided the buffer satisfies the chain
invariant on entry, all positions lie within half the sequence space of
`rcv_base`, and the incoming segment does not partially overlap a
buffered segment that starts strictly before it.  The last proviso is
the one overlap the code's insertion loop never checks;
`c4_counterexample` shows the unqualified claim is false. -/
theorem c4_buffer_invariant (max_win : Nat) (scb : Receiver.StateControlBlock)
    (stats : Receiver.Stats) (segment : Segment)
    (hb0 : 0 ≤ scb.rcv_base) (hb1 : scb.rcv_base < 65536)
    (hw2 : (max_win : Int) ≤ 32767)
    (hch : buf_chain scb.rcv_base 1 max_win scb.buffer = true)
    (hs0 : 0 ≤ segment.seq_num) (hs1 : segment.seq_num < 65536)
    (hosw : seq_off scb.rcv_base segment.seq_num +
      (segment.data.length : Int) ≤ 32767)
    (hstr : ∀ t ∈ scb.buffer,
      seq_off scb.rcv_base t.seq_num < seq_off scb.rcv_base segment.seq_num →
      seq_off scb.rcv_base t.seq_num + (t.data.length : Int) ≤
        seq_off scb.rcv_base segment.seq_num)
    (scb' : Receiver.StateControlBlock) (stats' : Receiver.Stats)
    (delivered : List Segment)
    (hres : Receiver.process_data_segment max_win scb stats segment =
      some (scb', stats', delivered)) :
    (0 ≤ scb'.rcv_base ∧ scb'.rcv_base < 65536) ∧
    buf_chain scb'.rcv_base 1 max_win scb'.buffer = true ∧
    (∀ s ∈ scb'.buffer, wrap_cmp s.seq_num scb'.rcv_base = 1) ∧
    List.Pairwise (fun s1 s2 =>
      seq_off scb'.rcv_base s1.seq_num + (s1.data.length : Int) ≤
        seq_off scb'.rcv_base s2.seq_num ∨
      seq_off scb'.rcv_base s2.seq_num + (s2.data.length : Int) ≤
        seq_off scb'.rcv_base s1.seq_num) scb'.buffer := by
  have hoff := seq_off_spec scb.rcv_base segment.seq_num hb0 hb1 hs0 hs1
  have hconc : (0 ≤ scb.rcv_base ∧ scb.rcv_base < 65536) ∧
      buf_chain scb.rcv_base 1 max_win scb.buffer = true ∧
      (∀ s ∈ scb.buffer, wrap_cmp s.seq_num scb.rcv_base = 1) ∧
      List.Pairwise (fun s1 s2 =>
        seq_off scb.rcv_base s1.seq_num + (s1.data.length : Int) ≤
          seq_off scb.rcv_base s2.seq_num ∨
        seq_off scb.rcv_base s2.seq_num + (s2.data.length : Int) ≤
          seq_off scb.rcv_base s1.seq_num) scb.buffer :=
    ⟨⟨hb0, hb1⟩, hch,
      buf_chain_all_after scb.rcv_base max_win scb.buffer 1 hch le_rfl hb0 hb1 hw2,
      buf_chain_pairwise scb.rcv_base max_win scb.buffer 1 hch⟩
  simp only [Receiver.process_data_segment] at hres
  split_ifs at hres with h1 h2 h3 h4 h5
  · -- zero-length packet dropped; buffer unchanged
    simp only [Option.some.injEq, Prod.mk.injEq] at hres
    obtain ⟨hsc, -, -⟩ := hres
    rw [← hsc]
    exact hconc
  · -- packet beneath the window dropped; buffer unchanged
    simp only [Option.some.injEq, Prod.mk.injEq] at hres
    obtain ⟨hsc, -, -⟩ := hres
    rw [← hsc]
    exact hconc
  · -- packet exceeding the window dropped; buffer unchanged
    simp only [Option.some.injEq, Prod.mk.injEq] at hres
    obtain ⟨hsc, -, -⟩ := hres
    rw [← hsc]
    exact hconc
  · -- in-order packet: pop the in-order prefix
    have hlen1 : 1 ≤ (segment.data.length : Int) := by
      have := h2
      omega
    have hoz : seq_off scb.rcv_base segment.seq_num = 0 := by
      rw [h5]
      unfold seq_off wrap_sub SEQ_NUM_SPACE
      omega
    have hlen32 : (segment.data.length : Int) ≤ 32767 := by
      rw [hoz] at hosw
      omega
    have hend : segment.end_seq_num =
        (scb.rcv_base + (segment.data.length : Int)) % 65536 := by
      unfold Segment.end_seq_num wrap_add SEQ_NUM_SPACE
      rw [h5]
    have hwadd : wrap_add scb.rcv_base (max_win : Int) =
        (scb.rcv_base + (max_win : Int)) % 65536 := rfl
    have hlenwin : (segment.data.length : Int) ≤ (max_win : Int) := by
      rw [hend, hwadd] at h4
      rw [wrap_cmp_mod scb.rcv_base (segment.data.length : Int) (max_win : Int)
        (by omega) (by omega) (by omega) (by omega) (by omega)] at h4
      split_ifs at h4 with hA hB
      · omega
      · omega
      · exact absurd rfl h4
    have hpop1 : Receiver.pop_in_order scb.rcv_base (segment :: scb.buffer) =
        ((Receiver.pop_in_order segment.end_seq_num scb.buffer).1,
         (Receiver.pop_in_order segment.end_seq_num scb.buffer).2.1,
         segment :: (Receiver.pop_in_order segment.end_seq_num scb.buffer).2.2) := by
      simp only [Receiver.pop_in_order]
      rw [if_pos h5]
    rw [hpop1, hend] at hres
    obtain ⟨j', hj'0, hj'hi, hb', hrem⟩ :=
      pop_in_order_chain scb.rcv_base (max_win : Int) hb0 hb1 hw2 scb.buffer 1
        (segment.data.length : Int) hch (by omega) hlenwin
    rw [hb'] at hres
    rcases hrem with hnil | ⟨hd, tl, hcons, hne, hchh⟩
    · rw [hnil] at hres
      simp only [Option.some.injEq, Prod.mk.injEq] at hres
      obtain ⟨hsc, -, -⟩ := hres
      have hrb : scb'.rcv_base = (scb.rcv_base + j') % 65536 := by rw [← hsc]
      have hbuf : scb'.buffer = [] := by rw [← hsc]
      refine ⟨⟨by rw [hrb]; omega, by rw [hrb]; omega⟩, ?_, ?_, ?_⟩
      · rw [hrb, hbuf]
        rfl
      · rw [hbuf]
        intro s hs
        simp at hs
      · rw [hbuf]
        exact List.Pairwise.nil
    · rw [hcons] at hres
      dsimp only at hres
      split_ifs at hres with hpanic
      obtain ⟨hcurhd, hhdhi, hhd0, hhd1, hhdlen⟩ :=
        buf_chain_elem scb.rcv_base (max_win : Int) (hd :: tl)
          (seq_off scb.rcv_base hd.seq_num) hchh hd (List.mem_cons_self hd tl)
      have hhdlen1 : 1 ≤ (hd.data.length : Int) := by
        have := hhdlen
        omega
      have hhdoff := seq_off_spec scb.rcv_base hd.seq_num hb0 hb1 hhd0 hhd1
      have hj'lt : j' < seq_off scb.rcv_base hd.seq_num := by
        rw [hhdoff.1] at hpanic
        rw [wrap_cmp_mod scb.rcv_base j' (seq_off scb.rcv_base hd.seq_num)
          (by omega) (by omega) (by omega) (by omega) (by omega)] at hpanic
        split_ifs at hpanic with hA hB
        · exact hA
        · exact absurd hB.symm hne
        · exact absurd rfl hpanic
      have hreb := buf_chain_rebase scb.rcv_base (max_win : Int) hb0 hb1 hw2
        (hd :: tl) (seq_off scb.rcv_base hd.seq_num) j' hchh (by omega)
        (by omega) (by omega)
      have hch2 := buf_chain_hi_mono ((scb.rcv_base + j') % 65536) (hd :: tl)
        (seq_off scb.rcv_base hd.seq_num - j') ((max_win : Int) - j')
        (max_win : Int) hreb (by omega)
      have hch3 := buf_chain_lower_mono ((scb.rcv_base + j') % 65536)
        (max_win : Int) (hd :: tl) (seq_off scb.rcv_base hd.seq_num - j') 1
        hch2 (by omega)
      simp only [Option.some.injEq, Prod.mk.injEq] at hres
      obtain ⟨hsc, -, -⟩ := hres
      have hrb : scb'.rcv_base = (scb.rcv_base + j') % 65536 := by rw [← hsc]
      have hbuf : scb'.buffer = hd :: tl := by rw [← hsc]
      refine ⟨⟨by rw [hrb]; omega, by rw [hrb]; omega⟩, ?_, ?_, ?_⟩
      · rw [hrb, hbuf]
        exact hch3
      · rw [hrb, hbuf]
        exact buf_chain_all_after ((scb.rcv_base + j') % 65536) (max_win : Int)
          (hd :: tl) (seq_off scb.rcv_base hd.seq_num - j') hch2 (by omega)
          (by omega) (by omega) hw2
      · rw [hrb, hbuf]
        exact buf_chain_pairwise ((scb.rcv_base + j') % 65536) (max_win : Int)
          (hd :: tl) (seq_off scb.rcv_base hd.seq_num - j') hch2
  · -- out-of-order packet: insert into the sorted buffer
    have hlen1 : 1 ≤ (segment.data.length : Int) := by
      have := h2
      omega
    have hos1 : 1 ≤ seq_off scb.rcv_base segment.seq_num := by
      by_contra hcon
      have hz : seq_off scb.rcv_base segment.seq_num = 0 := by omega
      apply h5
      rw [hoff.1, hz]
      omega
    have hend2 : segment.end_seq_num = (scb.rcv_base +
        (seq_off scb.rcv_base segment.seq_num + (segment.data.length : Int)))
        % 65536 := by
      unfold Segment.end_seq_num wrap_add SEQ_NUM_SPACE
      conv_lhs => rw [hoff.1]
      omega
    have hwadd : wrap_add scb.rcv_base (max_win : Int) =
        (scb.rcv_base + (max_win : Int)) % 65536 := rfl
    have hin : seq_off scb.rcv_base segment.seq_num +
        (segment.data.length : Int) ≤ (max_win : Int) := by
      rw [hend2, hwadd] at h4
      rw [wrap_cmp_mod scb.rcv_base
        (seq_off scb.rcv_base segment.seq_num + (segment.data.length : Int))
        (max_win : Int) (by omega) (by omega) (by omega) (by omega)
        (by omega)] at h4
      split_ifs at h4 with hA hB
      · omega
      · omega
      · exact absurd rfl h4
    rcases hins : Receiver.buffer_insert segment scb.buffer with _ | r2
    · rw [hins] at hres
      simp at hres
    · rw [hins] at hres
      simp only [Option.map_some'] at hres
      have hchain := buffer_insert_chain scb.rcv_base (max_win : Int) hb0 hb1
        hw2 segment (seq_off scb.rcv_base segment.seq_num) hoff.1 hoff.2.1 h2
        hin scb.buffer 1 hch (by omega) hos1 hstr r2 hins
      split_ifs at hres with hb2 <;>
        (simp only [Option.some.injEq, Prod.mk.injEq] at hres
         obtain ⟨hsc, -, -⟩ := hres
         have hrb : scb'.rcv_base = scb.rcv_base := by rw [← hsc]
         have hbuf : scb'.buffer = r2.1 := by rw [← hsc]
         refine ⟨⟨by rw [hrb]; omega, by rw [hrb]; omega⟩, ?_, ?_, ?_⟩
         · rw [hrb, hbuf]
           exact hchain
         · rw [hrb, hbuf]
           exact buf_chain_all_after scb.rcv_base (max_win : Int) r2.1 1 hchain
             le_rfl hb0 hb1 hw2
         · rw [hrb, hbuf]
           exact buf_chain_pairwise scb.rcv_base (max_win : Int) r2.1 1 hchain)

theorem c4_buffer_invariant_witness :
    Receiver.process_data_segment 10 ⟨0, [], "est"⟩ ⟨0, 0, 0, 0, 0, 0, 0, 0, none⟩
        ⟨0, 0, 0, 0, [65]⟩ =
      some (⟨1, [], "est"⟩, ⟨1, 0, 1, 0, 0, 0, 0, 0, none⟩,
        [⟨0, 0, 0, 0, [65]⟩]) ∧
    ((0 ≤ (⟨1, [], "est"⟩ : Receiver.StateControlBlock).rcv_base ∧
        (⟨1, [], "est"⟩ : Receiver.StateControlBlock).rcv_base < 65536) ∧
      buf_chain (⟨1, [], "est"⟩ : Receiver.StateControlBlock).rcv_base 1 10
        (⟨1, [], "est"⟩ : Receiver.StateControlBlock).buffer = true ∧
      (∀ s ∈ (⟨1, [], "est"⟩ : Receiver.StateControlBlock).buffer,
        wrap_cmp s.seq_num
          (⟨1, [], "est"⟩ : Receiver.StateControlBlock).rcv_base = 1) ∧
      List.Pairwise (fun s1 s2 =>
        seq_off (⟨1, [], "est"⟩ : Receiver.StateControlBlock).rcv_base
            s1.seq_num + (s1.data.length : Int) ≤
          seq_off (⟨1, [], "est"⟩ : Receiver.StateControlBlock).rcv_base
            s2.seq_num ∨
        seq_off (⟨1, [], "est"⟩ : Receiver.StateControlBlock).rcv_base
            s2.seq_num + (s2.data.length : Int) ≤
          seq_off (⟨1, [], "est"⟩ : Receiver.StateControlBlock).rcv_base
            s1.seq_num)
        (⟨1, [], "est"⟩ : Receiver.StateControlBlock).buffer) :=
  ⟨by decide,
    c4_buffer_invariant 10 ⟨0, [], "est"⟩ ⟨0, 0, 0, 0, 0, 0, 0, 0, none⟩
      ⟨0, 0, 0, 0, [65]⟩ (by decide) (by decide) (by decide) (by decide)
      (by decide) (by decide) (by decide) (by decide) ⟨1, [], "est"⟩
      ⟨1, 0, 1, 0, 0, 0, 0, 0, none⟩ [⟨0, 0, 0, 0, [65]⟩] (by decide)⟩

end URP
